import Mathlib

/-!
# Verification of the Drawing_Engine image vectorizer

A shallow embedding, in Lean 4, of the parts of
`knowledge/engine/image_vectorizer.py` that the specification's claims are
about: the Douglas-Peucker path simplifier, the PNG scanline un-filtering,
the JPEG entropy-decode loop with its partial-success policy, the pixel
grids, the connected-component labeler and Moore-neighbor contour tracer,
the output coordinate transform, and the MCP sequence generator.

Conventions used throughout:

* Python `float` coordinates are modelled with `ℚ`.  The source compares
  Euclidean distances (square roots of rationals); since `Real.sqrt` is
  strictly monotone on nonnegative numbers, every comparison between two
  distances is embedded as the same comparison between their squares, and a
  comparison `sqrt d > eps` is embedded as `eps < 0 ∨ d > eps^2`.  Every
  branch taken by the embedding is therefore the branch taken by the source.
* Python lists mutated in place are embedded either as folds over
  `List.set`, or, where an in-place loop reads entries it has already
  written, as the recurrence those final values satisfy.
* Python functions that can raise return `Option`/`Except`; unbounded
  loops are given explicit fuel, chosen so that the fuel can run out only
  when the source diverges.
-/

/-- A 2-D point; the source's `Point` dataclass (coordinates are Python
floats, embedded as rationals). -/
structure Point where
  x : ℚ
  y : ℚ
deriving DecidableEq, Repr

instance : Inhabited Point := ⟨⟨0, 0⟩⟩

/-- The source's `Line` dataclass: a start point, an end point and a layer
name (default `"OUTLINE"`).  The source calls the second field `end`, which
is a keyword in Lean. -/
structure Line where
  start : Point
  endp : Point
  layer : String := "OUTLINE"
deriving DecidableEq, Repr

/-- The source's `Contour` dataclass. -/
structure Contour where
  points : List Point := []
  is_closed : Bool := true
deriving DecidableEq, Repr

namespace PathSimplifier

/-- Square of `PathSimplifier._perpendicular_distance`.  The source returns
`sqrt` of exactly this rational; all its uses are order comparisons, which
are embedded on the squares (see the file header). -/
def perpendicular_distance_sq (p line_start line_end : Point) : ℚ :=
  let dx := line_end.x - line_start.x
  let dy := line_end.y - line_start.y
  if dx = 0 ∧ dy = 0 then
    (p.x - line_start.x) ^ 2 + (p.y - line_start.y) ^ 2
  else
    let line_len_sq := dx * dx + dy * dy
    let t0 := ((p.x - line_start.x) * dx + (p.y - line_start.y) * dy) / line_len_sq
    let t := max 0 (min 1 t0)
    let proj_x := line_start.x + t * dx
    let proj_y := line_start.y + t * dy
    (p.x - proj_x) ^ 2 + (p.y - proj_y) ^ 2

/-- The comparison `sqrt dsq > eps` of the source, on the square `dsq`:
true iff `eps < 0`, or `eps ≥ 0` and `dsq > eps^2`. -/
def dist_gt_eps (dsq eps : ℚ) : Bool :=
  if eps < 0 then true else decide (eps * eps < dsq)

/-- The source's running-maximum scan
`for i in range(1, len(points)-1): if dist > max_dist: max_dist, max_idx = dist, i`,
on the list `ds` of squared interior distances, starting at index `i` with
accumulator `(max_dist_sq, max_idx)`. -/
def max_scan : List ℚ → Nat → ℚ × Nat → ℚ × Nat
  | [], _, acc => acc
  | d :: ds, i, (md, mi) =>
      max_scan ds (i + 1) (if md < d then (d, i) else (md, mi))

/-- Squared distances of the interior points (indices `1 .. n-2`) to the
chord from the first to the last point. -/
def interior_dists (pts : List Point) (s e : Point) : List ℚ :=
  (pts.drop 1).dropLast.map (fun p => perpendicular_distance_sq p s e)

/-- `PathSimplifier.simplify`, with explicit fuel bounding the recursion
depth.  The source recursion strictly shrinks its argument whenever
`ε ≥ 0`, so depth `|pts|` never exhausts the fuel then (proved below); for
`ε < 0` the source can recurse on an identical argument and diverge
(`RecursionError`), which the embedding reports as `none`. -/
def simplify_fuel : Nat → List Point → ℚ → Option (List Point)
  | fuel, pts, eps =>
    if pts.length < 3 then some pts
    else
      match fuel with
      | 0 => none
      | f + 1 =>
        let s := pts.headI
        let e := pts.getLastD s
        let scan := max_scan (interior_dists pts s e) 1 (0, 0)
        if dist_gt_eps scan.1 eps then
          match simplify_fuel f (pts.take (scan.2 + 1)) eps,
                simplify_fuel f (pts.drop scan.2) eps with
          | some left, some right => some (left.dropLast ++ right)
          | _, _ => none
        else
          some [s, e]

/-- `PathSimplifier.simplify(points, epsilon)`: the fuelled recursion at
fuel `|points|`, which is exactly enough whenever the source terminates. -/
def simplify (points : List Point) (epsilon : ℚ) : Option (List Point) :=
  simplify_fuel points.length points epsilon

end PathSimplifier

namespace PNGDecoder

/-- `PNGDecoder._paeth_predictor`. -/
def paeth_predictor (a b c : Nat) : Nat :=
  let p : Int := (a : Int) + (b : Int) - (c : Int)
  let pa := (p - a).natAbs
  let pb := (p - b).natAbs
  let pc := (p - c).natAbs
  if pa ≤ pb ∧ pa ≤ pc then a
  else if pb ≤ pc then b
  else c

/-- Final value of entry `i` of the Sub-filtered row after
`for i in range(bpp, len(result)): result[i] = (result[i] + result[i-bpp]) & 0xFF`.
The in-place loop runs left to right, so entry `i` reads the already
unfiltered entry `i - bpp`; that is the recurrence below.  The decoder only
calls with `bpp = max(1, ...) ≥ 1`; the `0 < bpp` guard makes the recursion
well founded. -/
def sub_at (bpp : Nat) (row : List Nat) (i : Nat) : Nat :=
  if h : 0 < bpp ∧ bpp ≤ i then
    (row.getD i 0 + sub_at bpp row (i - bpp)) % 256
  else
    row.getD i 0
termination_by i
decreasing_by omega

/-- Final value of entry `i` of the Average-filtered row: the in-place loop
reads the already unfiltered left entry (`0` when `i < bpp`) and the
previous unfiltered row. -/
def avg_at (bpp : Nat) (row prev : List Nat) (i : Nat) : Nat :=
  let up := prev.getD i 0
  let left := if h : 0 < bpp ∧ bpp ≤ i then avg_at bpp row prev (i - bpp) else 0
  (row.getD i 0 + (left + up) / 2) % 256
termination_by i
decreasing_by omega

/-- Final value of entry `i` of the Paeth-filtered row. -/
def paeth_at (bpp : Nat) (row prev : List Nat) (i : Nat) : Nat :=
  let up := prev.getD i 0
  let left := if h : 0 < bpp ∧ bpp ≤ i then paeth_at bpp row prev (i - bpp) else 0
  let up_left := if bpp ≤ i then prev.getD (i - bpp) 0 else 0
  (row.getD i 0 + paeth_predictor left up up_left) % 256
termination_by i
decreasing_by omega

/-- `PNGDecoder._unfilter_row(filter_type, row, prev_row, bpp)`.  The source
mutates a copy of `row` in place; each map below lists the final values of
that loop (see `sub_at`, `avg_at`, `paeth_at`).  An unrecognized filter
type falls through every branch and the row is returned unchanged, exactly
as in the source.  The source indexes `prev_row[i]` directly (an exception
if `prev_row` is shorter than `row`, which no caller does); the embedding
uses `getD`. -/
def unfilter_row (filter_type : Nat) (row prev_row : List Nat) (bpp : Nat) : List Nat :=
  if filter_type = 0 then row
  else if filter_type = 1 then
    (List.range row.length).map (sub_at bpp row)
  else if filter_type = 2 then
    (List.range row.length).map (fun i => (row.getD i 0 + prev_row.getD i 0) % 256)
  else if filter_type = 3 then
    (List.range row.length).map (avg_at bpp row prev_row)
  else if filter_type = 4 then
    (List.range row.length).map (paeth_at bpp row prev_row)
  else row

/-- Modelled from the spec: the PNG reference *filter* (the encoder
direction, which the repository does not contain).  Per the PNG
specification and §4.1 of the spec ("undo PNG's five filters ... using the
preceding byte in the same row and the corresponding byte in the previous
unfiltered row"), each filtered byte is the original byte minus a predictor
computed from the *unfiltered* neighbors, modulo 256. -/
def filter_row (filter_type : Nat) (orig prev_row : List Nat) (bpp : Nat) : List Nat :=
  (List.range orig.length).map (fun i =>
    let x := orig.getD i 0
    let left := if bpp ≤ i then orig.getD (i - bpp) 0 else 0
    let up := prev_row.getD i 0
    let up_left := if bpp ≤ i then prev_row.getD (i - bpp) 0 else 0
    let pred : Nat :=
      if filter_type = 0 then 0
      else if filter_type = 1 then left
      else if filter_type = 2 then up
      else if filter_type = 3 then (left + up) / 2
      else if filter_type = 4 then paeth_predictor left up up_left
      else 0
    (((x : Int) - (pred : Int)) % 256).toNat)

end PNGDecoder

/-- The source's `BinaryImage`: width, height, and a `height × width` grid
of `{0,1}` values stored row-major as nested lists. -/
structure BinaryImage where
  width : Nat
  height : Nat
  pixels : List (List Nat)
deriving DecidableEq, Repr

namespace BinaryImage

/-- `BinaryImage(width, height)`: the all-background grid. -/
def mk_blank (width height : Nat) : BinaryImage :=
  ⟨width, height, List.replicate height (List.replicate width 0)⟩

/-- `BinaryImage.set_pixel`: in-bounds writes update the grid, anything
else is a no-op. -/
def set_pixel (img : BinaryImage) (x y : Int) (value : Nat) : BinaryImage :=
  if 0 ≤ x ∧ x < img.width ∧ 0 ≤ y ∧ y < img.height then
    { img with pixels := img.pixels.set y.toNat ((img.pixels.getD y.toNat []).set x.toNat value) }
  else img

/-- `BinaryImage.get_pixel`: out-of-range reads return background 0. -/
def get_pixel (img : BinaryImage) (x y : Int) : Nat :=
  if 0 ≤ x ∧ x < img.width ∧ 0 ≤ y ∧ y < img.height then
    (img.pixels.getD y.toNat []).getD x.toNat 0
  else 0

/-- `BinaryImage.from_grayscale_array(pixels, threshold)`: dimensions from
the array, then one `set_pixel(x, y, 1 if pixels[y][x] < threshold else 0)`
per cell. -/
def from_grayscale_array (pixels : List (List Int)) (threshold : Int) : BinaryImage :=
  let height := pixels.length
  let width := (pixels.headD []).length
  (List.range height).foldl (fun img (y : Nat) =>
    (List.range width).foldl (fun img (x : Nat) =>
      img.set_pixel x y (if (pixels.getD y []).getD x 0 < threshold then 1 else 0)) img)
    (mk_blank width height)

end BinaryImage

/-- The source's `GrayscaleImage`: a `height × width` grid of integers. -/
structure GrayscaleImage where
  width : Nat
  height : Nat
  pixels : List (List Int)
deriving DecidableEq, Repr

namespace GrayscaleImage

/-- `GrayscaleImage.set_pixel`: in-bounds writes store the value clamped
to `[0, 255]`; anything else is a no-op. -/
def set_pixel (img : GrayscaleImage) (x y value : Int) : GrayscaleImage :=
  if 0 ≤ x ∧ x < img.width ∧ 0 ≤ y ∧ y < img.height then
    { img with pixels :=
        (img.pixels.set y.toNat ((img.pixels.getD y.toNat []).set x.toNat (max 0 (min 255 value)))) }
  else img

/-- `GrayscaleImage.get_pixel`: out-of-range reads return 0. -/
def get_pixel (img : GrayscaleImage) (x y : Int) : Int :=
  if 0 ≤ x ∧ x < img.width ∧ 0 ≤ y ∧ y < img.height then
    (img.pixels.getD y.toNat []).getD x.toNat 0
  else 0

/-- The grid has exactly `height` rows of exactly `width` entries. -/
def well_formed (img : GrayscaleImage) : Prop :=
  img.pixels.length = img.height ∧ ∀ row ∈ img.pixels, row.length = img.width

/-- Every stored value lies in `[0, 255]`. -/
def in_range (img : GrayscaleImage) : Prop :=
  ∀ row ∈ img.pixels, ∀ v ∈ row, 0 ≤ v ∧ v ≤ 255

end GrayscaleImage

namespace ConnectedComponentLabeler

/-- One step of the source's BFS `_flood_fill` queue loop: pop `(x, y)`;
skip it when out of bounds, background, or already labelled; otherwise
label it, record it, and push its 4-neighbors.  `deque.popleft` plus
`append` is the FIFO discipline below.  The fuel only guards Lean
totality: each grid cell is labelled at most once, so the queue handles at
most `1 + 4·width·height` entries and the fuel chosen by `label` is never
exhausted. -/
def flood_fill_go (img : BinaryImage) (label : Nat) :
    Nat → List (Int × Int) → List (List Nat) → List (Int × Int) →
    List (List Nat) × List (Int × Int)
  | 0, _, labels, pixels => (labels, pixels)
  | _ + 1, [], labels, pixels => (labels, pixels)
  | fuel + 1, (x, y) :: queue, labels, pixels =>
    if ¬ (0 ≤ x ∧ x < img.width ∧ 0 ≤ y ∧ y < img.height) then
      flood_fill_go img label fuel queue labels pixels
    else if img.get_pixel x y ≠ 1 ∨ (labels.getD y.toNat []).getD x.toNat 0 ≠ 0 then
      flood_fill_go img label fuel queue labels pixels
    else
      flood_fill_go img label fuel
        (queue ++ [(x + 1, y), (x - 1, y), (x, y + 1), (x, y - 1)])
        (labels.set y.toNat ((labels.getD y.toNat []).set x.toNat label))
        (pixels ++ [(x, y)])

/-- `ConnectedComponentLabeler._flood_fill(start_x, start_y, label)`. -/
def flood_fill (img : BinaryImage) (start_x start_y : Int) (label : Nat)
    (labels : List (List Nat)) : List (List Nat) × List (Int × Int) :=
  flood_fill_go img label (4 * (img.width * img.height) + 4) [(start_x, start_y)] labels []

/-- `ConnectedComponentLabeler.label(min_area)`: raster scan; flood-fill
each unlabelled foreground pixel; un-label regions smaller than
`min_area` and give back the label number.  Returns the final label count
and label grid. -/
def label (img : BinaryImage) (min_area : Nat) : Nat × List (List Nat) :=
  (List.range img.height).foldl (fun acc (y : Nat) =>
    (List.range img.width).foldl (fun (acc : Nat × List (List Nat)) (x : Nat) =>
      let (current_label, labels) := acc
      if img.get_pixel x y = 1 ∧ (labels.getD y []).getD x 0 = 0 then
        let (labels1, pixels) := flood_fill img x y (current_label + 1) labels
        if min_area ≤ pixels.length then (current_label + 1, labels1)
        else
          (current_label,
           pixels.foldl (fun ls p =>
             ls.set p.2.toNat ((ls.getD p.2.toNat []).set p.1.toNat 0)) labels1)
      else acc) acc)
    (0, List.replicate img.height (List.replicate img.width 0))

end ConnectedComponentLabeler

namespace ContourTracer

/-- The 8 Moore neighbor offsets, clockwise from the right. -/
def DIRECTIONS : List (Int × Int) :=
  [(1, 0), (1, 1), (0, 1), (-1, 1), (-1, 0), (-1, -1), (0, -1), (1, -1)]

/-- The body of `_trace_contour`'s `while True` loop.  Each iteration
appends the current pixel, marks it visited, then scans the 8 neighbors
clockwise starting just past the reverse of the arrival direction; it
stops when no foreground neighbor exists, when the walk returns to the
start, or when the point count exceeds `width·height`.  The source loop
appends one point per iteration and stops once the count exceeds
`width·height`, so the fuel chosen by `trace_contour` is never
exhausted. -/
def trace_go (img : BinaryImage) (start_x start_y : Int) :
    Nat → Int → Int → Nat → Bool → List Point → List (Int × Int) →
    List Point × List (Int × Int)
  | 0, _, _, _, _, points, visited => (points, visited)
  | fuel + 1, x, y, direction, first, points, visited =>
    let points := points ++ [⟨(x : ℚ), (y : ℚ)⟩]
    let visited := visited ++ [(x, y)]
    let start_dir := (direction + 5) % 8
    let found := (List.range 8).findSome? (fun i =>
      let check_dir := (start_dir + i) % 8
      let d := DIRECTIONS.getD check_dir (0, 0)
      if img.get_pixel (x + d.1) (y + d.2) = 1 then some (x + d.1, y + d.2, check_dir)
      else none)
    match found with
    | none => (points, visited)
    | some (nx, ny, ndir) =>
      if ¬ first ∧ nx = start_x ∧ ny = start_y then (points, visited)
      else if img.width * img.height < points.length then (points, visited)
      else trace_go img start_x start_y fuel nx ny ndir false points visited

/-- `ContourTracer._trace_contour(start_x, start_y)`: run the walk, then
keep the contour only if it has at least 3 points. -/
def trace_contour (img : BinaryImage) (visited : List (Int × Int)) (start_x start_y : Int) :
    Option Contour × List (Int × Int) :=
  let (points, visited1) :=
    trace_go img start_x start_y (img.width * img.height + 3) start_x start_y 0 true [] visited
  (if 3 ≤ points.length then some ⟨points, true⟩ else none, visited1)

/-- `ContourTracer.trace_all_contours(min_length)`: raster scan for
unvisited foreground pixels whose left neighbor is background; trace from
each and keep contours with at least `min_length` points. -/
def trace_all_contours (img : BinaryImage) (min_length : Nat) : List Contour :=
  ((List.range img.height).foldl (fun acc y =>
    (List.range img.width).foldl
      (fun (acc : List Contour × List (Int × Int)) x =>
        let (contours, visited) := acc
        if img.get_pixel x y = 1 ∧ img.get_pixel ((x : Int) - 1) y = 0 ∧
            ((x : Int), (y : Int)) ∉ visited then
          match trace_contour img visited x y with
          | (some c, visited1) =>
            if min_length ≤ c.points.length then (contours ++ [c], visited1)
            else (contours, visited1)
          | (none, visited1) => (contours, visited1)
        else acc) acc)
    ([], [])).1

end ContourTracer

/-- The state of the source's `ImageVectorizer` class: loaded image,
pipeline results, configuration and output placement. -/
structure VecState where
  binary_image : Option BinaryImage := none
  contours : List Contour := []
  simplified_contours : List Contour := []
  lines : List Line := []
  mode : String := "binary"
  threshold : Int := 128
  edge_threshold : Int := 50
  min_component_area : Nat := 16
  min_contour_length : Nat := 10
  simplify_epsilon : ℚ := 2
  output_scale : ℚ := 1
  output_offset : Point := ⟨0, 0⟩
  flip_y : Bool := true

namespace ImageVectorizer

/-- `ImageVectorizer.__init__`'s defaults. -/
def init : VecState := {}

/-- `ImageVectorizer._transform_point`: scale, then optional vertical flip
about the image height, then translate.  (`self.binary_image` is truthy in
the source exactly when an image is loaded.) -/
def transform_point (v : VecState) (point : Point) : Point :=
  let x := point.x * v.output_scale + v.output_offset.x
  let y :=
    match v.binary_image with
    | some img =>
      if v.flip_y then ((img.height : ℚ) - point.y) * v.output_scale
      else point.y * v.output_scale
    | none => point.y * v.output_scale
  ⟨x, y + v.output_offset.y⟩

/-- `ImageVectorizer.set_output_bounds(x, y, width, height)`: `none` when
no image is loaded (the source raises `ValueError`); otherwise stores
`min(width/image_width, height/image_height)` as the scale and `(x, y)` as
the offset. -/
def set_output_bounds (v : VecState) (x y width height : ℚ) : Option VecState :=
  match v.binary_image with
  | none => none
  | some img =>
    let scale_x := width / (img.width : ℚ)
    let scale_y := height / (img.height : ℚ)
    some { v with output_scale := min scale_x scale_y, output_offset := ⟨x, y⟩ }

/-- `ImageVectorizer._contour_to_lines`: one `Line` per consecutive point
pair, plus one closing segment from last to first when the contour is
closed **and has more than 2 points**. -/
def contour_to_lines (v : VecState) (contour : Contour) : List Line :=
  let points := contour.points
  if points.length < 2 then []
  else
    let consec := (List.range (points.length - 1)).map (fun i =>
      { start := transform_point v (points.getD i default),
        endp := transform_point v (points.getD (i + 1) default) : Line })
    if contour.is_closed ∧ 2 < points.length then
      consec ++ [{ start := transform_point v (points.getLastD default),
                   endp := transform_point v (points.headD default) : Line }]
    else consec

/-- `ImageVectorizer.vectorize()`: label components (the result is only
printed in the source — tracing rescans the grid), trace contours,
simplify each, convert to lines.  `none` when no image is loaded (the
source raises `ValueError`) or when a simplification diverges. -/
def vectorize (v : VecState) : Option VecState :=
  match v.binary_image with
  | none => none
  | some img =>
    let _num_labels := (ConnectedComponentLabeler.label img v.min_component_area).1
    let contours := ContourTracer.trace_all_contours img v.min_contour_length
    match contours.mapM (fun c =>
        (PathSimplifier.simplify c.points v.simplify_epsilon).map
          (fun ps => { points := ps, is_closed := c.is_closed : Contour })) with
    | none => none
    | some simplified =>
      let v1 := { v with contours := contours, simplified_contours := simplified }
      let lines := simplified.foldl (fun acc c => acc ++ contour_to_lines v1 c) []
      some { v1 with lines := lines }

/-- Result of `ImageVectorizer.generate_mcp_sequence`: either the error
dictionary or a successful sequence, recorded by its `total_lines` and
`total_steps` counts (one layer-creation step plus one step per batch of at
most 50 lines). -/
inductive McpResult where
  | err (msg : String)
  | ok (total_lines total_steps : Nat)
deriving DecidableEq, Repr

/-- `ImageVectorizer.generate_mcp_sequence(layer)`: an **error** result
whenever `self.lines` is empty, otherwise the batched sequence. -/
def generate_mcp_sequence (v : VecState) (_layer : String) : McpResult :=
  if v.lines.isEmpty then
    McpResult.err "No lines generated. Run vectorize() first."
  else
    McpResult.ok v.lines.length (1 + (v.lines.length + 49) / 50)

end ImageVectorizer

/-- ASCII lower-casing of one character (`str.lower()` also folds
non-ASCII letters, which never matters against the ASCII supported set). -/
def lower_char (c : Char) : Char :=
  if 'A' ≤ c ∧ c ≤ 'Z' then Char.ofNat (c.toNat + 32) else c

/-- `str.split('.')` on a character list (Lean's `String.splitOn` does not
reduce in the kernel; this is the same function on `List Char`). -/
def split_on_dot : List Char → List (List Char)
  | [] => [[]]
  | c :: cs =>
    let r := split_on_dot cs
    if c = '.' then [] :: r
    else
      match r with
      | [] => [[c]]
      | g :: gs => (c :: g) :: gs

/-- The extension computed by `filepath.lower().split('.')[-1]`. -/
def ext_of (filepath : String) : String :=
  ⟨(split_on_dot (filepath.data.map lower_char)).getLastD []⟩

/-- Which branch `load_image_native` takes, before any pixel work. -/
inductive NativeLoad where
  | png
  | jpeg
  | pnm
  | err (msg : String)
deriving DecidableEq, Repr

/-- The format dispatch at the top of `load_image_native(filepath)`: an
unsupported extension raises `ValueError` naming the supported set before
any pixel work. -/
def load_image_native_dispatch (filepath : String) : NativeLoad :=
  let ext := ext_of filepath
  if ext = "png" then NativeLoad.png
  else if ext = "jpg" ∨ ext = "jpeg" then NativeLoad.jpeg
  else if ext = "ppm" ∨ ext = "pgm" ∨ ext = "pbm" then NativeLoad.pnm
  else NativeLoad.err
    ("Unsupported image format: " ++ ext ++ ". Supported: png, jpg, jpeg, ppm, pgm, pbm")

/-- Which branch `BinaryImage.from_file` takes.  For an extension outside
the native set the source *tries to import PIL first*: with Pillow
installed it proceeds to decode the file (`via_pil`); only when the import
fails does it raise `ImportError` naming the supported set. -/
inductive BinFromFile where
  | via_ppm
  | via_native
  | via_pil
  | import_err (msg : String)
deriving DecidableEq, Repr

/-- The format dispatch of `BinaryImage.from_file(filepath, threshold)`;
`pillow_available` models whether `from PIL import Image` succeeds. -/
def binaryimage_from_file_dispatch (filepath : String) (pillow_available : Bool) : BinFromFile :=
  let ext := ext_of filepath
  if ext = "ppm" ∨ ext = "pgm" ∨ ext = "pbm" then BinFromFile.via_ppm
  else if ext = "png" then BinFromFile.via_native
  else if ext = "jpg" ∨ ext = "jpeg" then BinFromFile.via_native
  else if pillow_available then BinFromFile.via_pil
  else BinFromFile.import_err
    ("Unsupported format: " ++ ext_of filepath ++
     ". Supported: png, jpg, jpeg, ppm, pgm, pbm\nOr install Pillow for additional formats.")

/-- Which branch `GrayscaleImage.from_file` takes. -/
inductive GrayFromFile where
  | via_ppm
  | via_native
  | err (msg : String)
deriving DecidableEq, Repr

/-- The format dispatch of `GrayscaleImage.from_file(filepath)`: an
unsupported extension raises `ValueError` naming the supported set. -/
def grayscale_from_file_dispatch (filepath : String) : GrayFromFile :=
  let ext := ext_of filepath
  if ext = "ppm" ∨ ext = "pgm" ∨ ext = "pbm" then GrayFromFile.via_ppm
  else if ext = "png" ∨ ext = "jpg" ∨ ext = "jpeg" then GrayFromFile.via_native
  else GrayFromFile.err
    ("Unsupported format: " ++ ext ++ ". Supported: png, jpg, jpeg, ppm, pgm, pbm")

namespace JPEGDecoder

/-- The kinds of Python exception that can be raised inside
`JPEGDecoder._decode_scan`'s MCU loop: `IndexError` (a scan-header
component list shorter than the frame's), and `ZeroDivisionError` (a zero
sampling factor in `_blocks_to_pixels`, or a zero MCU size before the
loop).  The `except (IndexError, KeyError)` clause of the source catches
exactly the first two kinds.  (`KeyError` is listed in that clause, so it
is modelled, although no reachable statement produces it.) -/
inductive PyErr where
  | indexError
  | keyError
  | zeroDivisionError
deriving DecidableEq, Repr

/-- One frame component from SOF0: id, sampling factors, quantization
table id (the source's per-component dict). -/
structure JComponent where
  cid : Nat
  h_sampling : Nat
  v_sampling : Nat
  quant_table : Nat
deriving DecidableEq, Repr

/-- One scan component from the SOS header: id, DC table id, AC table id. -/
structure JScanComp where
  cid : Nat
  dc : Nat
  ac : Nat
deriving DecidableEq, Repr

/-- The source's bit-reader state: `_scan_data`, `_scan_pos`,
`_bit_buffer`, `_bits_left` (bytes as naturals `< 256`). -/
structure BitState where
  scan_data : List Nat
  scan_pos : Nat
  bit_buffer : Nat
  bits_left : Nat
deriving DecidableEq, Repr

/-- `JPEGDecoder._read_bit`: refill the byte buffer when empty; once the
scan data is exhausted *and* the buffer is empty, return `0` and leave the
state untouched. -/
def read_bit (s : BitState) : Nat × BitState :=
  if s.bits_left = 0 then
    if s.scan_data.length ≤ s.scan_pos then (0, s)
    else
      let buf := s.scan_data.getD s.scan_pos 0
      ((buf >>> 7) &&& 1,
       { s with bit_buffer := buf, scan_pos := s.scan_pos + 1, bits_left := 7 })
  else
    ((s.bit_buffer >>> (s.bits_left - 1)) &&& 1, { s with bits_left := s.bits_left - 1 })

/-- The accumulator loop of `JPEGDecoder._read_bits`. -/
def read_bits_go : Nat → Nat → BitState → Nat × BitState
  | 0, value, s => (value, s)
  | n + 1, value, s =>
    let (b, s1) := read_bit s
    read_bits_go n ((value <<< 1) ||| b) s1

/-- `JPEGDecoder._read_bits(n)`. -/
def read_bits (n : Nat) (s : BitState) : Nat × BitState :=
  read_bits_go n 0 s

/-- A Huffman table: the source's `{(code, length): symbol}` dictionary as
an association list. -/
abbrev HuffTable := List ((Nat × Nat) × Nat)

/-- The code-lengthening loop of `JPEGDecoder._decode_huffman`:
`remaining` counts the lengths still to try (16 at the start); after all
16, the source returns `0`. -/
def decode_huffman_go (table : HuffTable) : Nat → Nat → Nat → BitState → Nat × BitState
  | 0, _, _, s => (0, s)
  | remaining + 1, code, len, s =>
    let (b, s1) := read_bit s
    let code1 := (code <<< 1) ||| b
    match table.lookup (code1, len + 1) with
    | some symbol => (symbol, s1)
    | none => decode_huffman_go table remaining code1 (len + 1) s1

/-- `JPEGDecoder._decode_huffman(table)`. -/
def decode_huffman (table : HuffTable) (s : BitState) : Nat × BitState :=
  decode_huffman_go table 16 0 0 s

/-- `JPEGDecoder.ZIGZAG`. -/
def ZIGZAG : List Nat :=
  [0, 1, 8, 16, 9, 2, 3, 10,
   17, 24, 32, 25, 18, 11, 4, 5,
   12, 19, 26, 33, 40, 48, 41, 34,
   27, 20, 13, 6, 7, 14, 21, 28,
   35, 42, 49, 56, 57, 50, 43, 36,
   29, 22, 15, 23, 30, 37, 44, 51,
   58, 59, 52, 45, 38, 31, 39, 46,
   53, 60, 61, 54, 47, 55, 62, 63]

/-- The category/extra-bits sign reconstruction
`if v < (1 << (category-1)): v -= (1 << category) - 1` (used for both DC
differences and AC values; only called with `category > 0`). -/
def extend_value (v category : Nat) : Int :=
  if v < 1 <<< (category - 1) then (v : Int) - (((1 <<< category) - 1 : Nat) : Int)
  else (v : Int)

/-- Truncation toward zero of a rational, Python's `int(...)` on a float. -/
def int_trunc (q : ℚ) : Int := Int.tdiv q.num q.den

/-- `JPEGDecoder._idct` (the direct double-sum formulation).  The source
evaluates `math.cos((2x+1)·u·π/16)` in double precision; those
transcendental values have no rational embedding, so the cosine table is a
parameter `cos_tab` (applied to the integer multiplier `(2x+1)·u`), and
the literal `0.7071067811865476` is embedded as that exact decimal.  Every
claim proved below is independent of the table's values. -/
def idct (cos_tab : Nat → ℚ) (block : List Int) : List Int :=
  ((List.range 64).map (fun idx =>
    let x := idx % 8
    let y := idx / 8
    let sum_val : ℚ := (List.range 8).foldl (fun acc v =>
      (List.range 8).foldl (fun acc u =>
        let cu : ℚ := if u = 0 then 0.7071067811865476 else 1
        let cv : ℚ := if v = 0 then 0.7071067811865476 else 1
        acc + cu * cv * ((block.getD (v * 8 + u) 0 : Int) : ℚ) *
          cos_tab ((2 * x + 1) * u) * cos_tab ((2 * y + 1) * v)) acc) 0
    int_trunc (sum_val / 4 + 128))).map (fun r => max 0 (min 255 r))

/-- The AC-coefficient loop of `JPEGDecoder._decode_block`; `i` starts at
1, grows by at least 1 per iteration and the loop stops at 64, so the fuel
`64` given below is never exhausted. -/
def decode_ac_go (ac_table : HuffTable) : Nat → Nat → List Int → BitState → List Int × BitState
  | 0, _, block, s => (block, s)
  | fuel + 1, i, block, s =>
    if 64 ≤ i then (block, s)
    else
      let (symbol, s1) := decode_huffman ac_table s
      if symbol = 0 then (block, s1)
      else
        let run_length := (symbol >>> 4) &&& 15
        let category := symbol &&& 15
        if symbol = 0xF0 then decode_ac_go ac_table fuel (i + 16) block s1
        else
          let i1 := i + run_length
          if 64 ≤ i1 then (block, s1)
          else if 0 < category then
            let (value, s2) := read_bits category s1
            decode_ac_go ac_table fuel (i1 + 1)
              (block.set (ZIGZAG.getD i1 0) (extend_value value category)) s2
          else decode_ac_go ac_table fuel (i1 + 1) block s1

/-- All marker-segment state of `JPEGDecoder` once the headers preceding
SOS have been parsed (that parsing is outside the claims about the MCU
loop): frame components, scan components, Huffman and quantization tables
(dictionaries keyed by table id), image size, and the cosine table for
`idct`. -/
structure JpegCtx where
  components : List JComponent
  comp_info : List JScanComp
  huffman_dc : List (Nat × HuffTable)
  huffman_ac : List (Nat × HuffTable)
  quant_tables : List (Nat × List Nat)
  width : Nat
  height : Nat
  cos_tab : Nat → ℚ

/-- `JPEGDecoder._decode_block(comp_idx, comp_info, dc_pred)`: DC
difference, AC run-length loop, dequantization (`{1,...}` default table as
in `dict.get`), inverse DCT.  Total: no statement in it can raise. -/
def decode_block (ctx : JpegCtx) (comp_idx : Nat) (cinfo : JScanComp) (dc_pred : Int)
    (s : BitState) : List Int × Int × BitState :=
  let dc_table := (ctx.huffman_dc.lookup cinfo.dc).getD []
  let (category, s1) := decode_huffman dc_table s
  let (dc_pred1, s2) :=
    if 0 < category then
      let (diff, s2) := read_bits category s1
      (dc_pred + extend_value diff category, s2)
    else (dc_pred, s1)
  let block0 : List Int := (List.replicate 64 0).set 0 dc_pred1
  let ac_table := (ctx.huffman_ac.lookup cinfo.ac).getD []
  let (block1, s3) := decode_ac_go ac_table 64 1 block0 s2
  let comp := ctx.components.getD comp_idx ⟨0, 0, 0, 0⟩
  let qt := (ctx.quant_tables.lookup comp.quant_table).getD (List.replicate 64 1)
  let block2 := (List.range 64).map (fun i => block1.getD i 0 * ((qt.getD i 0 : Nat) : Int))
  (idct ctx.cos_tab block2, dc_pred1, s3)

/-- An RGB pixel grid, the source's `self.pixels`. -/
abbrev RGBGrid := List (List (Int × Int × Int))

/-- The all-black initial grid `[[(0,0,0)] * width for _ in range(height)]`. -/
def init_grid (width height : Nat) : RGBGrid :=
  List.replicate height (List.replicate width ((0 : Int), (0 : Int), (0 : Int)))

/-- Write one pixel of the grid. -/
def set_rgb (grid : RGBGrid) (py px : Nat) (v : Int × Int × Int) : RGBGrid :=
  grid.set py ((grid.getD py []).set px v)

/-- Clamp to `[0, 255]`. -/
def clamp255 (v : Int) : Int := max 0 (min 255 v)

/-- The BT.601 `YCbCr → RGB` conversion of `_blocks_to_pixels`.  The
source's float coefficients are embedded as the exact decimals written in
it; no claim below depends on the converted values. -/
def ycbcr_to_rgb (y cb cr : Int) : Int × Int × Int :=
  let r := int_trunc ((y : ℚ) + 1.402 * ((cr : ℚ) - 128))
  let g := int_trunc ((y : ℚ) - 0.344136 * ((cb : ℚ) - 128) - 0.714136 * ((cr : ℚ) - 128))
  let b := int_trunc ((y : ℚ) + 1.772 * ((cb : ℚ) - 128))
  (clamp255 r, clamp255 g, clamp255 b)

/-- The per-pixel component sampling of `_blocks_to_pixels`: one value per
frame component.  `(bx // 8) % h_sampling` (and the `v_sampling`
analogue) raise `ZeroDivisionError` when the sampling factor is zero —
that exception is *not* in the `except` clause of `_decode_scan`. -/
def pixel_values (comps : List JComponent) (blocks : List (List (List Int)))
    (bx b_y : Nat) : Except PyErr (List Int) :=
  comps.enum.mapM (fun ci_comp =>
    let ci := ci_comp.1
    let comp := ci_comp.2
    if comp.h_sampling = 0 ∨ comp.v_sampling = 0 then Except.error PyErr.zeroDivisionError
    else
      let block_x := (bx / 8) % comp.h_sampling
      let block_y := (b_y / 8) % comp.v_sampling
      let block_idx := block_y * comp.h_sampling + block_x
      let in_x := bx % 8
      let in_y := b_y % 8
      let cbl := blocks.getD ci []
      if block_idx < cbl.length then
        Except.ok ((cbl.getD block_idx []).getD (in_y * 8 + in_x) 0)
      else Except.ok 128)

/-- `JPEGDecoder._blocks_to_pixels`: fill the MCU's rectangle, skipping
out-of-image pixels; three or more component values are converted from
YCbCr, exactly one is written as gray, any other count writes nothing.  A
`ZeroDivisionError` from `pixel_values` can only fire at the very first
pixel of the rectangle (it depends only on the components, and pixel
`(bx, b_y) = (0, 0)` of every MCU produced by `_decode_scan` is inside the
image), so no partial writes precede it and returning the untouched grid
in the `error` case is exact. -/
def blocks_to_pixels (comps : List JComponent) (width height : Nat)
    (blocks : List (List (List Int))) (mcu_x mcu_y mcu_width mcu_height : Nat)
    (grid : RGBGrid) : Except PyErr RGBGrid :=
  (List.range mcu_height).foldlM (fun grid b_y =>
    (List.range mcu_width).foldlM (fun grid bx =>
      let px := mcu_x * mcu_width + bx
      let py := mcu_y * mcu_height + b_y
      if width ≤ px ∨ height ≤ py then Except.ok grid
      else
        match pixel_values comps blocks bx b_y with
        | Except.error e => Except.error e
        | Except.ok (y :: cb :: cr :: _) => Except.ok (set_rgb grid py px (ycbcr_to_rgb y cb cr))
        | Except.ok [y] => Except.ok (set_rgb grid py px (y, y, y))
        | Except.ok _ => Except.ok grid) grid) grid

/-- One block's turn inside a component's sampling loops.  The source
evaluates `comp_info[ci]` here, in the innermost loop body, once per
decoded block (an `IndexError` when the SOS header listed fewer components
than the frame — but only if this body runs at all), then calls
`_decode_block`. -/
def decode_block_step (ctx : JpegCtx) (ci : Nat)
    (acc : List (List Int) × Int × BitState) :
    Except PyErr (List (List Int) × Int × BitState) :=
  let (cbl, dcv, s) := acc
  match ctx.comp_info[ci]? with
  | none => Except.error PyErr.indexError
  | some cinfo =>
    let (b, dcv1, s1) := decode_block ctx ci cinfo dcv s
    Except.ok (cbl ++ [b], dcv1, s1)

/-- One component's blocks inside one MCU: the
`for v in range(v_sampling): for h in range(h_sampling):` loops, each
iteration a `decode_block_step`, threading the DC predictor and the bit
reader.  When a sampling factor is 0 the loops run zero times and the
scan info is never looked up. -/
def decode_mcu_comp (ctx : JpegCtx) (ci : Nat) (comp : JComponent)
    (dcv : Int) (s : BitState) : Except PyErr (List (List Int) × Int × BitState) :=
  (List.range comp.v_sampling).foldlM (fun acc _v =>
    (List.range comp.h_sampling).foldlM (fun acc _hh =>
      decode_block_step ctx ci acc) acc) ([], dcv, s)

/-- One component's turn inside the per-MCU block-decoding loop: decode
its `v_sampling × h_sampling` blocks (looking up `comp_info[ci]` lazily,
per block), then append them and write the DC predictor back. -/
def decode_mcu_step (ctx : JpegCtx)
    (acc : List (List (List Int)) × List Int × BitState) (ci_comp : Nat × JComponent) :
    Except PyErr (List (List (List Int)) × List Int × BitState) :=
  let (blocks, dc, s) := acc
  let ci := ci_comp.1
  let comp := ci_comp.2
  match decode_mcu_comp ctx ci comp (dc.getD ci 0) s with
  | Except.error e => Except.error e
  | Except.ok (cbl, dcv, s1) => Except.ok (blocks ++ [cbl], dc.set ci dcv, s1)

/-- The block-decoding half of one MCU iteration: `decode_mcu_step` for
each frame component in order. -/
def decode_mcu (ctx : JpegCtx) (dc : List Int) (s : BitState) :
    Except PyErr (List (List (List Int)) × List Int × BitState) :=
  ctx.components.enum.foldlM (decode_mcu_step ctx) ([], dc, s)

/-- One full iteration of the MCU loop: decode every component's blocks,
then assemble them into pixels. -/
def mcu_step (ctx : JpegCtx) (mcu_width mcu_height : Nat) (m : Nat × Nat)
    (st : RGBGrid × List Int × BitState) : Except PyErr (RGBGrid × List Int × BitState) :=
  match decode_mcu ctx st.2.1 st.2.2 with
  | Except.error e => Except.error e
  | Except.ok (blocks, dc, s) =>
    match blocks_to_pixels ctx.components ctx.width ctx.height blocks m.1 m.2
        mcu_width mcu_height st.1 with
    | Except.error e => Except.error e
    | Except.ok g => Except.ok (g, dc, s)

/-- The `try`-wrapped double loop of `_decode_scan`: run the MCUs in raster
order; when an iteration raises, stop and report the exception together
with the grid as already filled (an exception leaves the grid of that
iteration untouched, see `blocks_to_pixels`). -/
def run_scan_loop (ctx : JpegCtx) (mcu_width mcu_height : Nat) :
    List (Nat × Nat) → RGBGrid × List Int × BitState → RGBGrid × Option PyErr
  | [], st => (st.1, none)
  | m :: ms, st =>
    match mcu_step ctx mcu_width mcu_height m st with
    | Except.error e => (st.1, some e)
    | Except.ok st1 => run_scan_loop ctx mcu_width mcu_height ms st1

/-- The same loop on the assumption that no iteration raises: `none` as
soon as one does.  Used to state which prefix of the MCU list a partial
decode completed. -/
def run_scan_ok (ctx : JpegCtx) (mcu_width mcu_height : Nat) :
    List (Nat × Nat) → RGBGrid × List Int × BitState → Option (RGBGrid × List Int × BitState)
  | [], st => some st
  | m :: ms, st =>
    match mcu_step ctx mcu_width mcu_height m st with
    | Except.error _ => none
    | Except.ok st1 => run_scan_ok ctx mcu_width mcu_height ms st1

/-- `max(c['h_sampling'] for c in self.components)` (0 for an empty list,
where the source's `max` raises — excluded by the hypotheses of every
theorem below, and mapped to the pre-loop error by `decode_scan`). -/
def max_h (comps : List JComponent) : Nat :=
  comps.foldl (fun a c => max a c.h_sampling) 0

/-- `max(c['v_sampling'] for c in self.components)`. -/
def max_v (comps : List JComponent) : Nat :=
  comps.foldl (fun a c => max a c.v_sampling) 0

/-- The MCUs in the raster order of the source's double loop. -/
def mcu_list (mcus_x mcus_y : Nat) : List (Nat × Nat) :=
  ((List.range mcus_y).map (fun my => (List.range mcus_x).map (fun mx => (mx, my)))).flatten

/-- `mcu_width = 8 * max_h`. -/
def mcu_width (ctx : JpegCtx) : Nat := 8 * max_h ctx.components

/-- `mcu_height = 8 * max_v`. -/
def mcu_height (ctx : JpegCtx) : Nat := 8 * max_v ctx.components

/-- The MCUs `_decode_scan` iterates over:
`mcus_x = (width + mcu_width - 1) // mcu_width` columns and the analogous
number of rows, in raster order. -/
def scan_mcus (ctx : JpegCtx) : List (Nat × Nat) :=
  mcu_list ((ctx.width + mcu_width ctx - 1) / mcu_width ctx)
    ((ctx.height + mcu_height ctx - 1) / mcu_height ctx)

/-- The state at the top of the MCU loop: all-black grid, zero DC
predictors, fresh bit reader over the scan data. -/
def scan_init (ctx : JpegCtx) (scan_data : List Nat) : RGBGrid × List Int × BitState :=
  (init_grid ctx.width ctx.height,
   List.replicate ctx.components.length (0 : Int),
   ⟨scan_data, 0, 0, 0⟩)

/-- The pixel of a grid at `(px, py)` (black outside the stored lists,
like the freshly initialized buffer). -/
def rgb_at (g : RGBGrid) (px py : Nat) : Int × Int × Int :=
  (g.getD py []).getD px (0, 0, 0)

/-- Pixel `(px, py)` lies in the rectangle that MCU `m` writes. -/
def in_mcu_rect (mw mh : Nat) (m : Nat × Nat) (px py : Nat) : Prop :=
  m.1 * mw ≤ px ∧ px < m.1 * mw + mw ∧ m.2 * mh ≤ py ∧ py < m.2 * mh + mh

/-- `JPEGDecoder._decode_scan` from the point where the SOS header has
been parsed (`ctx.comp_info`): compute the MCU geometry (a zero MCU size
makes `mcus_x = ... // mcu_width` raise before the `try`), initialize the
all-black grid and DC predictors, run the MCU loop, and apply
`except (IndexError, KeyError): pass` — those two exception kinds keep the
pixels decoded so far, any other kind propagates out of `decode_bytes`. -/
def decode_scan (ctx : JpegCtx) (scan_data : List Nat) : Except PyErr RGBGrid :=
  if mcu_width ctx = 0 ∨ mcu_height ctx = 0 then Except.error PyErr.zeroDivisionError
  else
    match run_scan_loop ctx (mcu_width ctx) (mcu_height ctx) (scan_mcus ctx)
        (scan_init ctx scan_data) with
    | (g, none) => Except.ok g
    | (g, some PyErr.indexError) => Except.ok g
    | (g, some PyErr.keyError) => Except.ok g
    | (_, some PyErr.zeroDivisionError) => Except.error PyErr.zeroDivisionError

end JPEGDecoder

/-! ## Supporting lemmas -/

section ListHelpers

variable {α : Type _}

theorem getD_set_self (l : List α) (i : Nat) (a d : α) (h : i < l.length) :
    (l.set i a).getD i d = a := by
  simp [List.getD_eq_getElem?_getD, List.getElem?_set_self', h]

theorem getD_set_ne (l : List α) (i j : Nat) (a d : α) (h : i ≠ j) :
    (l.set i a).getD j d = l.getD j d := by
  simp [List.getD_eq_getElem?_getD, List.getElem?_set_ne h]

theorem mem_of_getD (l : List α) (i : Nat) (d : α) (h : i < l.length) :
    l.getD i d ∈ l := by
  rw [List.getD_eq_getElem?_getD, List.getElem?_eq_getElem h]
  exact List.getElem_mem h

end ListHelpers

/-! ## C9: `GrayscaleImage.set_pixel` -/

/-- C9.  Every call to `GrayscaleImage.set_pixel` preserves the invariant
that all stored pixels lie in `[0,255]`; an in-bounds write stores the
value clamped to `[0,255]` (never raising on an out-of-range value), and a
write with out-of-bounds coordinates leaves the grid completely
unchanged. -/
theorem c9_set_pixel_clamp (img : GrayscaleImage) (x y value : Int)
    (hwf : img.well_formed) :
    (img.in_range → (img.set_pixel x y value).in_range) ∧
    (¬ (0 ≤ x ∧ x < img.width ∧ 0 ≤ y ∧ y < img.height) →
      img.set_pixel x y value = img) ∧
    ((0 ≤ x ∧ x < img.width ∧ 0 ≤ y ∧ y < img.height) →
      (img.set_pixel x y value).get_pixel x y = max 0 (min 255 value)) := by
  unfold GrayscaleImage.set_pixel
  by_cases hb : 0 ≤ x ∧ x < img.width ∧ 0 ≤ y ∧ y < img.height
  · obtain ⟨hx0, hxw, hy0, hyh⟩ := hb
    rw [if_pos ⟨hx0, hxw, hy0, hyh⟩]
    obtain ⟨hlen, hrow⟩ := hwf
    have hylt : y.toNat < img.pixels.length := by
      rw [hlen]; omega
    have hrowmem : img.pixels.getD y.toNat [] ∈ img.pixels := mem_of_getD _ _ _ hylt
    have hxlt : x.toNat < (img.pixels.getD y.toNat []).length := by
      rw [hrow _ hrowmem]; omega
    refine ⟨?_, ?_, ?_⟩
    · intro hin row hmem v hv
      rcases List.mem_or_eq_of_mem_set hmem with hold | hnew
      · exact hin row hold v hv
      · subst hnew
        rcases List.mem_or_eq_of_mem_set hv with hvold | hvnew
        · exact hin _ hrowmem v hvold
        · subst hvnew; omega
    · intro hnb; exact absurd ⟨hx0, hxw, hy0, hyh⟩ hnb
    · intro _
      show GrayscaleImage.get_pixel _ x y = _
      unfold GrayscaleImage.get_pixel
      rw [if_pos ⟨hx0, hxw, hy0, hyh⟩]
      simp only
      rw [getD_set_self _ _ _ _ hylt, getD_set_self _ _ _ _ hxlt]
  · rw [if_neg hb]
    exact ⟨fun hin => hin, fun _ => rfl, fun hb2 => absurd hb2 hb⟩

/-- Witness for C9 at a concrete image and write. -/
theorem c9_set_pixel_clamp_witness :
    (GrayscaleImage.mk 2 2 [[0, 0], [0, 0]]).well_formed ∧
    ((GrayscaleImage.mk 2 2 [[0, 0], [0, 0]]).in_range →
      ((GrayscaleImage.mk 2 2 [[0, 0], [0, 0]]).set_pixel 1 0 999).in_range) ∧
    (¬ (0 ≤ (1 : Int) ∧ (1 : Int) < (GrayscaleImage.mk 2 2 [[0, 0], [0, 0]]).width ∧
        0 ≤ (0 : Int) ∧ (0 : Int) < (GrayscaleImage.mk 2 2 [[0, 0], [0, 0]]).height) →
      (GrayscaleImage.mk 2 2 [[0, 0], [0, 0]]).set_pixel 1 0 999 =
        GrayscaleImage.mk 2 2 [[0, 0], [0, 0]]) ∧
    ((0 ≤ (1 : Int) ∧ (1 : Int) < (GrayscaleImage.mk 2 2 [[0, 0], [0, 0]]).width ∧
        0 ≤ (0 : Int) ∧ (0 : Int) < (GrayscaleImage.mk 2 2 [[0, 0], [0, 0]]).height) →
      ((GrayscaleImage.mk 2 2 [[0, 0], [0, 0]]).set_pixel 1 0 999).get_pixel 1 0 =
        max 0 (min 255 999)) := by
  refine ⟨⟨rfl, ?_⟩, c9_set_pixel_clamp _ 1 0 999 ⟨rfl, ?_⟩⟩ <;>
    · intro row hrow
      simp only [List.mem_cons, List.not_mem_nil] at hrow
      rcases hrow with h | h | h <;> first | (subst h; rfl) | exact absurd h (by simp)

/-! ## C3: the output coordinate transform -/

/-- C3.  For a loaded `w × h` image and destination rectangle
`(x0, y0, W, H)`, after `set_output_bounds` the transform maps pixel
`(px, py)` to `(px·s + x0, (h − py)·s + y0)` with
`s = min(W/w, H/h)`; in particular a default vectorizer with a 10×10 image
mapped to `(0, 0, 100, 100)` sends pixel `(0,0)` to `(0,100)` and `(9,9)`
to `(90,10)`. -/
theorem c3_output_transform (v : VecState) (img : BinaryImage) (x0 y0 w h px py : ℚ)
    (himg : v.binary_image = some img) (hflip : v.flip_y = true)
    (hw : 0 < img.width) (hh : 0 < img.height) :
    (∃ v1, ImageVectorizer.set_output_bounds v x0 y0 w h = some v1 ∧
      ImageVectorizer.transform_point v1 ⟨px, py⟩ =
        ⟨px * min (w / (img.width : ℚ)) (h / (img.height : ℚ)) + x0,
         ((img.height : ℚ) - py) * min (w / (img.width : ℚ)) (h / (img.height : ℚ)) + y0⟩) ∧
    (ImageVectorizer.set_output_bounds
          { binary_image := some (BinaryImage.mk_blank 10 10) } 0 0 100 100).map
        (fun v1 => (ImageVectorizer.transform_point v1 ⟨0, 0⟩,
                    ImageVectorizer.transform_point v1 ⟨9, 9⟩)) =
      some (⟨0, 100⟩, ⟨90, 10⟩) := by
  constructor
  · have hsob : ImageVectorizer.set_output_bounds v x0 y0 w h = some { v with output_scale := min (w / (img.width : ℚ)) (h / (img.height : ℚ)), output_offset := ⟨x0, y0⟩ } := by
      rw [ImageVectorizer.set_output_bounds, himg]
    exact ⟨_, hsob, by simp [ImageVectorizer.transform_point, himg, hflip]⟩
  · have hsob : ImageVectorizer.set_output_bounds
        { binary_image := some (BinaryImage.mk_blank 10 10) } 0 0 100 100 =
        some { binary_image := some (BinaryImage.mk_blank 10 10), output_scale := min ((100 : ℚ) / ((BinaryImage.mk_blank 10 10).width : ℚ)) ((100 : ℚ) / ((BinaryImage.mk_blank 10 10).height : ℚ)), output_offset := ⟨0, 0⟩ } := rfl
    have hmin : min ((100 : ℚ) / ((BinaryImage.mk_blank 10 10).width : ℚ))
        ((100 : ℚ) / ((BinaryImage.mk_blank 10 10).height : ℚ)) = 10 := by
      norm_num [BinaryImage.mk_blank]
    rw [hsob]
    simp only [Option.map]
    simp [ImageVectorizer.transform_point, BinaryImage.mk_blank, hmin, Point.mk.injEq]
    norm_num

/-- Witness for C3 at the 10×10 image itself. -/
theorem c3_output_transform_witness :
    ({ binary_image := some (BinaryImage.mk_blank 10 10) } :
        VecState).binary_image = some (BinaryImage.mk_blank 10 10) ∧
    ({ binary_image := some (BinaryImage.mk_blank 10 10) } : VecState).flip_y = true ∧
    0 < (BinaryImage.mk_blank 10 10).width ∧ 0 < (BinaryImage.mk_blank 10 10).height ∧
    (∃ v1, ImageVectorizer.set_output_bounds
        { binary_image := some (BinaryImage.mk_blank 10 10) } 0 0 100 100 = some v1 ∧
      ImageVectorizer.transform_point v1 ⟨9, 9⟩ =
        ⟨9 * min ((100 : ℚ) / ((BinaryImage.mk_blank 10 10).width : ℚ))
               ((100 : ℚ) / ((BinaryImage.mk_blank 10 10).height : ℚ)) + 0,
         (((BinaryImage.mk_blank 10 10).height : ℚ) - 9) *
             min ((100 : ℚ) / ((BinaryImage.mk_blank 10 10).width : ℚ))
               ((100 : ℚ) / ((BinaryImage.mk_blank 10 10).height : ℚ)) + 0⟩) :=
  ⟨rfl, rfl, by norm_num [BinaryImage.mk_blank], by norm_num [BinaryImage.mk_blank],
   (c3_output_transform _ _ 0 0 100 100 9 9 rfl rfl
      (by norm_num [BinaryImage.mk_blank]) (by norm_num [BinaryImage.mk_blank])).1⟩

/-! ## C8: lines emitted per closed contour -/

/-- C8, counterexample.  The claim says a closed contour with `n ≥ 2`
points yields exactly `n` lines; the source adds the closing segment only
when `n > 2`, so the closed 2-point contour `[(0,0), (1,0)]` yields a
single line, not 2. -/
theorem c8_counterexample :
    (Contour.mk [⟨0, 0⟩, ⟨1, 0⟩] true).is_closed = true ∧
    (Contour.mk [⟨0, 0⟩, ⟨1, 0⟩] true).points.length = 2 ∧
    (ImageVectorizer.contour_to_lines ImageVectorizer.init
        (Contour.mk [⟨0, 0⟩, ⟨1, 0⟩] true)).length = 1 ∧
    (ImageVectorizer.contour_to_lines ImageVectorizer.init
        (Contour.mk [⟨0, 0⟩, ⟨1, 0⟩] true)).length ≠ 2 := by
  refine ⟨rfl, rfl, ?_, ?_⟩ <;>
    simp [ImageVectorizer.contour_to_lines]

/-- C8, amended.  For every closed contour with `n ≥ 3` points,
`_contour_to_lines` emits exactly `n` lines: one per consecutive point
pair (`n − 1`) plus one closing segment from the last point back to the
first; a closed 2-point contour yields only its single consecutive
line. -/
theorem c8_closed_contour_lines (v : VecState) (c : Contour)
    (hclosed : c.is_closed = true) (hlen : 3 ≤ c.points.length) :
    (ImageVectorizer.contour_to_lines v c).length = c.points.length := by
  unfold ImageVectorizer.contour_to_lines
  rw [if_neg (by omega)]
  simp only [hclosed, true_and]
  rw [if_pos (by omega)]
  simp
  omega

/-- Witness for C8 at a concrete 3-point closed contour. -/
theorem c8_closed_contour_lines_witness :
    (Contour.mk [⟨0, 0⟩, ⟨1, 0⟩, ⟨1, 1⟩] true).is_closed = true ∧
    3 ≤ (Contour.mk [⟨0, 0⟩, ⟨1, 0⟩, ⟨1, 1⟩] true).points.length ∧
    (ImageVectorizer.contour_to_lines ImageVectorizer.init
        (Contour.mk [⟨0, 0⟩, ⟨1, 0⟩, ⟨1, 1⟩] true)).length =
      (Contour.mk [⟨0, 0⟩, ⟨1, 0⟩, ⟨1, 1⟩] true).points.length :=
  ⟨rfl, by decide,
   c8_closed_contour_lines ImageVectorizer.init _ rfl (by decide)⟩

/-! ## C7: extension dispatch on loading -/

/-- C7, counterexample.  The claim says loading a file whose extension is
outside `{png, jpg, jpeg, ppm, pgm, pbm}` always fails immediately.  But
`BinaryImage.from_file("photo.bmp")` with Pillow installed takes the PIL
fallback branch and proceeds to decode pixels — it does not fail at
all. -/
theorem c7_counterexample :
    ext_of "photo.bmp" = "bmp" ∧
    binaryimage_from_file_dispatch "photo.bmp" true = BinFromFile.via_pil ∧
    ∀ msg, binaryimage_from_file_dispatch "photo.bmp" true ≠ BinFromFile.import_err msg := by
  refine ⟨by decide, by decide, fun msg h => ?_⟩
  rw [show binaryimage_from_file_dispatch "photo.bmp" true = BinFromFile.via_pil from by decide] at h
  exact BinFromFile.noConfusion h

/-- C7, amended.  For every path whose extension (lower-cased, after the
last dot) is outside `{png, jpg, jpeg, ppm, pgm, pbm}`:
`load_image_native` and `GrayscaleImage.from_file` fail immediately with
an error naming the supported set, before any pixel work;
`BinaryImage.from_file` first attempts the Pillow fallback — it fails
(naming the supported set) only when Pillow is unavailable, and proceeds
via PIL when it is. -/
theorem c7_extension_dispatch (filepath : String)
    (hpng : ext_of filepath ≠ "png") (hjpg : ext_of filepath ≠ "jpg")
    (hjpeg : ext_of filepath ≠ "jpeg") (hppm : ext_of filepath ≠ "ppm")
    (hpgm : ext_of filepath ≠ "pgm") (hpbm : ext_of filepath ≠ "pbm") :
    load_image_native_dispatch filepath =
      NativeLoad.err ("Unsupported image format: " ++ ext_of filepath ++
        ". Supported: png, jpg, jpeg, ppm, pgm, pbm") ∧
    grayscale_from_file_dispatch filepath =
      GrayFromFile.err ("Unsupported format: " ++ ext_of filepath ++
        ". Supported: png, jpg, jpeg, ppm, pgm, pbm") ∧
    binaryimage_from_file_dispatch filepath false =
      BinFromFile.import_err ("Unsupported format: " ++ ext_of filepath ++
        ". Supported: png, jpg, jpeg, ppm, pgm, pbm\nOr install Pillow for additional formats.") ∧
    binaryimage_from_file_dispatch filepath true = BinFromFile.via_pil := by
  unfold load_image_native_dispatch grayscale_from_file_dispatch binaryimage_from_file_dispatch
  simp [hpng, hjpg, hjpeg, hppm, hpgm, hpbm]

/-- Witness for C7 at `photo.bmp`. -/
theorem c7_extension_dispatch_witness :
    (ext_of "photo.bmp" ≠ "png" ∧ ext_of "photo.bmp" ≠ "jpg" ∧
     ext_of "photo.bmp" ≠ "jpeg" ∧ ext_of "photo.bmp" ≠ "ppm" ∧
     ext_of "photo.bmp" ≠ "pgm" ∧ ext_of "photo.bmp" ≠ "pbm") ∧
    load_image_native_dispatch "photo.bmp" =
      NativeLoad.err ("Unsupported image format: " ++ ext_of "photo.bmp" ++
        ". Supported: png, jpg, jpeg, ppm, pgm, pbm") ∧
    binaryimage_from_file_dispatch "photo.bmp" true = BinFromFile.via_pil :=
  ⟨⟨by decide, by decide, by decide, by decide, by decide, by decide⟩,
   (c7_extension_dispatch "photo.bmp" (by decide) (by decide) (by decide)
      (by decide) (by decide) (by decide)).1,
   (c7_extension_dispatch "photo.bmp" (by decide) (by decide) (by decide)
      (by decide) (by decide) (by decide)).2.2.2⟩

/-! ## C2: the empty-result pipeline -/

/-- C2.  On an all-white image (every gray value 255, binary mode,
threshold 128) the pipeline produces zero components, zero contours and
zero lines without raising — but `generate_mcp_sequence` then returns the
**error** object `{"error": "No lines generated. Run vectorize() first."}`
instead of the valid empty result the specification requires.  This
evaluates the code at the failing input of the code-bug report. -/
theorem c2_all_white_pipeline_error :
    (ConnectedComponentLabeler.label
        (BinaryImage.from_grayscale_array (List.replicate 3 (List.replicate 3 255)) 128) 16).1
      = 0 ∧
    (ImageVectorizer.vectorize
        { binary_image := some (BinaryImage.from_grayscale_array
            (List.replicate 3 (List.replicate 3 255)) 128) }).map
        (fun v => (v.contours.length, v.lines.length)) = some (0, 0) ∧
    (ImageVectorizer.vectorize
        { binary_image := some (BinaryImage.from_grayscale_array
            (List.replicate 3 (List.replicate 3 255)) 128) }).map
        (fun v => ImageVectorizer.generate_mcp_sequence v "TRACE") =
      some (ImageVectorizer.McpResult.err "No lines generated. Run vectorize() first.") := by
  refine ⟨by decide, by decide, by decide⟩

/-! ## C10: `_read_bit` on an exhausted stream -/

namespace JPEGDecoder

/-- C10, counterexample.  With the read position at the end of the scan
data (`scan_pos = 1 = length`) but 7 bits still buffered from the byte
`0xFF`, `_read_bit` returns `1` — not `0` — and changes the state.  The
claim's precondition (position at or past the length) is not enough. -/
theorem c10_counterexample :
    (BitState.mk [255] 1 255 7).scan_data.length ≤ (BitState.mk [255] 1 255 7).scan_pos ∧
    (read_bit (BitState.mk [255] 1 255 7)).1 = 1 ∧
    (read_bit (BitState.mk [255] 1 255 7)).2 ≠ BitState.mk [255] 1 255 7 := by
  decide

/-- The bit-accumulating loop returns `(0, s)` on an exhausted state. -/
theorem read_bits_go_exhausted (s : BitState)
    (hpos : s.scan_data.length ≤ s.scan_pos) (hbits : s.bits_left = 0) :
    ∀ n, read_bits_go n 0 s = (0, s) := by
  have hbit : read_bit s = (0, s) := by
    unfold read_bit
    rw [if_pos hbits, if_pos hpos]
  intro n
  induction n with
  | zero => rfl
  | succ n ih =>
    unfold read_bits_go
    rw [hbit]
    simpa using ih

/-- An `Except`-valued left fold whose every step succeeds succeeds. -/
theorem foldlM_except_ok {β γ ε : Type _} (f : β → γ → Except ε β)
    (h : ∀ b a, ∃ b1, f b a = Except.ok b1) :
    ∀ (l : List γ) (b : β), ∃ b1, List.foldlM f b l = Except.ok b1 := by
  intro l
  induction l with
  | nil => intro b; exact ⟨b, rfl⟩
  | cons a rest ih =>
    intro b
    obtain ⟨b1, hb1⟩ := h b a
    rw [List.foldlM_cons, hb1]
    show ∃ b2, List.foldlM f b1 rest = Except.ok b2
    exact ih b1

/-- `decode_block_step` succeeds whenever its component index is covered
by the scan header. -/
theorem decode_block_step_ok (ctx : JpegCtx) (ci : Nat)
    (hp : ci < ctx.comp_info.length) (acc : List (List Int) × Int × BitState) :
    ∃ acc1, decode_block_step ctx ci acc = Except.ok acc1 := by
  obtain ⟨cbl, dcv, s⟩ := acc
  unfold decode_block_step
  simp only [List.getElem?_eq_getElem hp]
  exact ⟨_, rfl⟩

/-- A component's whole sampling loop succeeds when its index is
covered. -/
theorem decode_mcu_comp_ok (ctx : JpegCtx) (ci : Nat) (comp : JComponent)
    (hp : ci < ctx.comp_info.length) (dcv : Int) (s : BitState) :
    ∃ acc1, decode_mcu_comp ctx ci comp dcv s = Except.ok acc1 := by
  unfold decode_mcu_comp
  exact foldlM_except_ok _
    (fun b _a => foldlM_except_ok _ (fun b1 _a1 => decode_block_step_ok ctx ci hp b1) _ b) _ _

/-- `decode_mcu_step` succeeds whenever its component index is covered by
the scan header. -/
theorem decode_mcu_step_ok (ctx : JpegCtx)
    (acc : List (List (List Int)) × List Int × BitState) (p : Nat × JComponent)
    (hp : p.1 < ctx.comp_info.length) :
    ∃ acc1, decode_mcu_step ctx acc p = Except.ok acc1 := by
  obtain ⟨blocks, dc, s⟩ := acc
  obtain ⟨⟨cbl, dcv, s1⟩, hc⟩ := decode_mcu_comp_ok ctx p.1 p.2 hp (dc.getD p.1 0) s
  unfold decode_mcu_step
  dsimp only
  rw [hc]
  exact ⟨_, rfl⟩

/-- The whole block-decoding fold succeeds when every listed index is
covered. -/
theorem decode_mcu_foldl_ok (ctx : JpegCtx) :
    ∀ (l : List (Nat × JComponent)) (acc : List (List (List Int)) × List Int × BitState),
      (∀ p ∈ l, p.1 < ctx.comp_info.length) →
      (List.foldlM (decode_mcu_step ctx) acc l).isOk = true := by
  intro l
  induction l with
  | nil => intro acc _; rfl
  | cons p rest ih =>
    intro acc hlt
    obtain ⟨acc1, hstep⟩ := decode_mcu_step_ok ctx acc p (hlt p (List.mem_cons_self p rest))
    rw [List.foldlM_cons, hstep]
    show (List.foldlM (decode_mcu_step ctx) acc1 rest).isOk = true
    exact ih acc1 (fun q hq => hlt q (List.mem_cons_of_mem p hq))

/-- C10, amended.  Once the scan byte buffer is exhausted (`scan_pos` at
or past its length) **and the bit buffer is empty** (`bits_left = 0`),
every subsequent `_read_bit` returns 0 without raising and without
changing the decoder state, and `_read_bits` likewise returns 0 — a
truncated entropy stream is decoded as if padded with zero bits.
Moreover the block-decoding half of an MCU iteration cannot fail from any
stream state at all: whenever the scan header covers every frame
component, `decode_mcu` succeeds, so stream exhaustion never triggers the
partial-failure path. -/
theorem c10_read_bit_exhausted (s : BitState)
    (hpos : s.scan_data.length ≤ s.scan_pos) (hbits : s.bits_left = 0)
    (n : Nat) (ctx : JpegCtx) (hcover : ctx.components.length ≤ ctx.comp_info.length)
    (dc : List Int) (bs : BitState) :
    read_bit s = (0, s) ∧
    read_bits n s = (0, s) ∧
    (decode_mcu ctx dc bs).isOk = true := by
  refine ⟨?_, ?_, ?_⟩
  · unfold read_bit
    rw [if_pos hbits, if_pos hpos]
  · exact read_bits_go_exhausted s hpos hbits n
  · unfold decode_mcu
    refine decode_mcu_foldl_ok ctx ctx.components.enum ([], dc, bs) ?_
    intro p hp
    rw [List.mem_enum_iff_getElem?] at hp
    have hlt : p.1 < ctx.components.length := (List.getElem?_eq_some.mp hp).1
    omega

/-- Witness for C10 at a concrete exhausted state and one-component
context. -/
theorem c10_read_bit_exhausted_witness :
    ((BitState.mk [7] 1 0 0).scan_data.length ≤ (BitState.mk [7] 1 0 0).scan_pos ∧
     (BitState.mk [7] 1 0 0).bits_left = 0 ∧
     (JpegCtx.mk [⟨1, 1, 1, 0⟩] [⟨1, 0, 0⟩] [] [] [] 8 8 (fun _ => 0)).components.length ≤
       (JpegCtx.mk [⟨1, 1, 1, 0⟩] [⟨1, 0, 0⟩] [] [] [] 8 8 (fun _ => 0)).comp_info.length) ∧
    read_bit (BitState.mk [7] 1 0 0) = (0, BitState.mk [7] 1 0 0) ∧
    read_bits 5 (BitState.mk [7] 1 0 0) = (0, BitState.mk [7] 1 0 0) ∧
    (decode_mcu (JpegCtx.mk [⟨1, 1, 1, 0⟩] [⟨1, 0, 0⟩] [] [] [] 8 8 (fun _ => 0))
        [0] (BitState.mk [7] 1 0 0)).isOk = true :=
  ⟨⟨by decide, rfl, by decide⟩,
   c10_read_bit_exhausted (BitState.mk [7] 1 0 0) (by decide) rfl 5
     (JpegCtx.mk [⟨1, 1, 1, 0⟩] [⟨1, 0, 0⟩] [] [] [] 8 8 (fun _ => 0)) (by decide)
     [0] (BitState.mk [7] 1 0 0)⟩

end JPEGDecoder

/-! ## C1: the JPEG partial-success policy -/

namespace JPEGDecoder

/-- C1, counterexample.  A frame whose second component has `h_sampling =
0` (and first has `v_sampling = 0`) reaches `_blocks_to_pixels` inside the
per-MCU loop, where `(bx // 8) % h_sampling` raises `ZeroDivisionError` —
an exception kind *not* in the `except (IndexError, KeyError)` clause — so
`decode_bytes` raises instead of keeping the pixels decoded so far. -/
theorem c1_counterexample :
    decode_scan
        (JpegCtx.mk [⟨1, 1, 0, 0⟩, ⟨2, 0, 1, 0⟩] [⟨1, 0, 0⟩, ⟨2, 0, 0⟩] [] [] [] 1 1
          (fun _ => 0)) [] =
      Except.error PyErr.zeroDivisionError := by
  rfl

/-- Invariant preservation through an `Except`-valued left fold. -/
theorem foldlM_except_invariant {β γ ε : Type _} (f : β → γ → Except ε β) (Q : β → Prop) :
    ∀ (l : List γ) (b b' : β),
      (∀ a ∈ l, ∀ c, Q c → ∀ c', f c a = Except.ok c' → Q c') →
      Q b → List.foldlM f b l = Except.ok b' → Q b' := by
  intro l
  induction l with
  | nil =>
    intro b b' _ hQ h
    rw [List.foldlM_nil] at h
    cases h
    exact hQ
  | cons a rest ih =>
    intro b b' hstep hQ h
    rw [List.foldlM_cons] at h
    cases hfa : f b a with
    | error e =>
      rw [hfa] at h
      exact Except.noConfusion h
    | ok c =>
      rw [hfa] at h
      exact ih c b' (fun a' ha' => hstep a' (List.mem_cons_of_mem _ ha'))
        (hstep a (List.mem_cons_self a rest) b hQ c hfa) h

/-- Writing one pixel leaves every other pixel unchanged. -/
theorem rgb_at_set_rgb_ne (g : RGBGrid) (px1 py1 : Nat) (v : Int × Int × Int)
    (px py : Nat) (hne : ¬ (px = px1 ∧ py = py1)) :
    rgb_at (set_rgb g py1 px1 v) px py = rgb_at g px py := by
  unfold rgb_at set_rgb
  by_cases hy : py = py1
  · subst hy
    have hx : px1 ≠ px := fun hx => hne ⟨hx.symm, rfl⟩
    by_cases hlen : py < g.length
    · rw [getD_set_self _ _ _ _ hlen]
      exact getD_set_ne _ _ _ _ _ hx
    · rw [List.set_eq_of_length_le (by omega)]
  · rw [getD_set_ne _ _ _ _ _ (fun h => hy h.symm)]

/-- `getD` on a replicated list. -/
theorem getD_replicate_eval {α : Type _} (n : Nat) (a d : α) (i : Nat) :
    (List.replicate n a).getD i d = if i < n then a else d := by
  rw [List.getD_eq_getElem?_getD, List.getElem?_replicate]
  split_ifs <;> rfl

/-- The freshly initialized grid is black everywhere. -/
theorem rgb_at_init (w h px py : Nat) : rgb_at (init_grid w h) px py = (0, 0, 0) := by
  unfold rgb_at init_grid
  rw [getD_replicate_eval]
  split_ifs with h1
  · rw [getD_replicate_eval]
    split_ifs <;> rfl
  · rfl

/-- `_blocks_to_pixels` writes only inside its MCU's rectangle. -/
theorem blocks_to_pixels_outside (comps : List JComponent) (w h : Nat)
    (blocks : List (List (List Int))) (mx my mw mh : Nat) (grid g1 : RGBGrid)
    (hok : blocks_to_pixels comps w h blocks mx my mw mh grid = Except.ok g1)
    (px py : Nat) (hout : ¬ in_mcu_rect mw mh (mx, my) px py) :
    rgb_at g1 px py = rgb_at grid px py := by
  unfold blocks_to_pixels at hok
  refine foldlM_except_invariant _ (fun g => rgb_at g px py = rgb_at grid px py)
    _ _ _ ?_ rfl hok
  intro b_y hby c hc c1 hstep
  have hbylt : b_y < mh := List.mem_range.mp hby
  refine foldlM_except_invariant _ (fun g => rgb_at g px py = rgb_at grid px py)
    _ _ _ ?_ hc hstep
  intro bx hbx d hd d1 hpix
  have hbxlt : bx < mw := List.mem_range.mp hbx
  by_cases hskip : w ≤ mx * mw + bx ∨ h ≤ my * mh + b_y
  · rw [if_pos hskip] at hpix
    cases hpix
    exact hd
  · rw [if_neg hskip] at hpix
    have hne : ¬ (px = mx * mw + bx ∧ py = my * mh + b_y) := by
      rintro ⟨rfl, rfl⟩
      refine hout ?_
      show mx * mw ≤ mx * mw + bx ∧ mx * mw + bx < mx * mw + mw ∧
        my * mh ≤ my * mh + b_y ∧ my * mh + b_y < my * mh + mh
      omega
    cases hpv : pixel_values comps blocks bx b_y with
    | error e =>
      rw [hpv] at hpix
      exact Except.noConfusion hpix
    | ok values =>
      rw [hpv] at hpix
      match values, hpix with
      | [], hpix => cases hpix; exact hd
      | [y], hpix =>
        cases hpix
        rw [rgb_at_set_rgb_ne _ _ _ _ _ _ hne]
        exact hd
      | [y, cb], hpix => cases hpix; exact hd
      | y :: cb :: cr :: rest, hpix =>
        cases hpix
        rw [rgb_at_set_rgb_ne _ _ _ _ _ _ hne]
        exact hd

/-- A successful `mcu_step` got its grid from `blocks_to_pixels` on that
MCU. -/
theorem mcu_step_ok_grid (ctx : JpegCtx) (mw mh : Nat) (m : Nat × Nat)
    (st st1 : RGBGrid × List Int × BitState)
    (h : mcu_step ctx mw mh m st = Except.ok st1) :
    ∃ blocks, blocks_to_pixels ctx.components ctx.width ctx.height blocks m.1 m.2 mw mh st.1 =
      Except.ok st1.1 := by
  unfold mcu_step at h
  cases hdm : decode_mcu ctx st.2.1 st.2.2 with
  | error e =>
    rw [hdm] at h
    exact Except.noConfusion h
  | ok trip =>
    obtain ⟨blocks, dc, s⟩ := trip
    rw [hdm] at h
    dsimp only at h
    cases hbp : blocks_to_pixels ctx.components ctx.width ctx.height blocks m.1 m.2 mw mh st.1 with
    | error e =>
      rw [hbp] at h
      exact Except.noConfusion h
    | ok g =>
      rw [hbp] at h
      cases h
      exact ⟨blocks, hbp⟩

/-- A successful prefix run leaves every pixel outside the prefix's MCU
rectangles unchanged. -/
theorem run_scan_ok_outside (ctx : JpegCtx) (mw mh : Nat) :
    ∀ (ms : List (Nat × Nat)) (st st1 : RGBGrid × List Int × BitState),
      run_scan_ok ctx mw mh ms st = some st1 →
      ∀ px py, (∀ m ∈ ms, ¬ in_mcu_rect mw mh m px py) →
      rgb_at st1.1 px py = rgb_at st.1 px py := by
  intro ms
  induction ms with
  | nil =>
    intro st st1 h px py _
    unfold run_scan_ok at h
    cases h
    rfl
  | cons m rest ih =>
    intro st st1 h px py hout
    unfold run_scan_ok at h
    cases hstep : mcu_step ctx mw mh m st with
    | error e =>
      rw [hstep] at h
      exact Option.noConfusion h
    | ok st2 =>
      rw [hstep] at h
      have h1 := ih st2 st1 h px py (fun m1 hm1 => hout m1 (List.mem_cons_of_mem _ hm1))
      obtain ⟨blocks, hbp⟩ := mcu_step_ok_grid ctx mw mh m st st2 hstep
      have h2 := blocks_to_pixels_outside ctx.components ctx.width ctx.height blocks
        m.1 m.2 mw mh st.1 st2.1 hbp px py (by
          have := hout m (List.mem_cons_self m rest)
          simpa using this)
      rw [h1, h2]

/-- The MCU loop runs some prefix successfully and then either finishes or
stops at the first raising iteration, returning the prefix's grid. -/
theorem run_scan_loop_prefix (ctx : JpegCtx) (mw mh : Nat) :
    ∀ (ms : List (Nat × Nat)) (st : RGBGrid × List Int × BitState),
      ∃ k, k ≤ ms.length ∧ ∃ st1,
        run_scan_ok ctx mw mh (ms.take k) st = some st1 ∧
        ((k = ms.length ∧ run_scan_loop ctx mw mh ms st = (st1.1, none)) ∨
         (∃ m e, ms[k]? = some m ∧ mcu_step ctx mw mh m st1 = Except.error e ∧
           run_scan_loop ctx mw mh ms st = (st1.1, some e))) := by
  intro ms
  induction ms with
  | nil =>
    intro st
    exact ⟨0, Nat.le_refl 0, st, rfl, Or.inl ⟨rfl, rfl⟩⟩
  | cons m rest ih =>
    intro st
    cases hstep : mcu_step ctx mw mh m st with
    | error e =>
      refine ⟨0, Nat.zero_le _, st, rfl, Or.inr ⟨m, e, by simp, hstep, ?_⟩⟩
      conv_lhs => rw [run_scan_loop]
      rw [hstep]
    | ok st2 =>
      obtain ⟨k, hk, st1, hok, hrest⟩ := ih st2
      refine ⟨k + 1, by simpa using Nat.succ_le_succ hk, st1, ?_, ?_⟩
      · rw [List.take_succ_cons]
        conv_lhs => rw [run_scan_ok]
        rw [hstep]
        exact hok
      · have hloop : run_scan_loop ctx mw mh (m :: rest) st =
            run_scan_loop ctx mw mh rest st2 := by
          conv_lhs => rw [run_scan_loop]
          rw [hstep]
        rcases hrest with ⟨hkeq, hl⟩ | ⟨m1, e, hm1, hst1, hl⟩
        · exact Or.inl ⟨by simpa using hkeq, by rw [hloop, hl]⟩
        · exact Or.inr ⟨m1, e, by simpa using hm1, hst1, by rw [hloop, hl]⟩

/-- C1, amended.  Inside the per-MCU decode loop, the exception kinds a
corrupt scan can produce there are exactly those of the source's
`except (IndexError, KeyError)` clause, and for those `decode_bytes` does
not raise and does not discard the image: `_decode_scan` runs some prefix
of the MCUs, returns with the pixel grid keeping every pixel those MCUs
decoded, and every pixel outside their rectangles still at its initial
value `(0,0,0)`; an exception of any other kind (the `ZeroDivisionError`
of a zero sampling factor) escapes the handler instead. -/
theorem c1_amended_partial_decode (ctx : JpegCtx) (scan_data : List Nat)
    (hmw : 0 < mcu_width ctx) (hmh : 0 < mcu_height ctx) :
    ∃ k, k ≤ (scan_mcus ctx).length ∧ ∃ st1,
      run_scan_ok ctx (mcu_width ctx) (mcu_height ctx) ((scan_mcus ctx).take k)
        (scan_init ctx scan_data) = some st1 ∧
      (∀ px py, (∀ m ∈ (scan_mcus ctx).take k,
          ¬ in_mcu_rect (mcu_width ctx) (mcu_height ctx) m px py) →
        rgb_at st1.1 px py = (0, 0, 0)) ∧
      ((k = (scan_mcus ctx).length ∧ decode_scan ctx scan_data = Except.ok st1.1) ∨
       (∃ m e, (scan_mcus ctx)[k]? = some m ∧
         mcu_step ctx (mcu_width ctx) (mcu_height ctx) m st1 = Except.error e ∧
         ((e = PyErr.indexError ∨ e = PyErr.keyError) →
           decode_scan ctx scan_data = Except.ok st1.1) ∧
         (e = PyErr.zeroDivisionError →
           decode_scan ctx scan_data = Except.error PyErr.zeroDivisionError))) := by
  obtain ⟨k, hk, st1, hok, hrest⟩ := run_scan_loop_prefix ctx (mcu_width ctx)
    (mcu_height ctx) (scan_mcus ctx) (scan_init ctx scan_data)
  refine ⟨k, hk, st1, hok, ?_, ?_⟩
  · intro px py hcov
    have h0 := run_scan_ok_outside ctx (mcu_width ctx) (mcu_height ctx) _ _ _ hok px py hcov
    rw [h0]
    exact rgb_at_init ctx.width ctx.height px py
  · have hcond : ¬ (mcu_width ctx = 0 ∨ mcu_height ctx = 0) := by omega
    rcases hrest with ⟨hkeq, hloop⟩ | ⟨m, e, hm, hstep, hloop⟩
    · refine Or.inl ⟨hkeq, ?_⟩
      unfold decode_scan
      rw [if_neg hcond, hloop]
    · refine Or.inr ⟨m, e, hm, hstep, ?_, ?_⟩
      · rintro (rfl | rfl) <;>
          · unfold decode_scan
            rw [if_neg hcond, hloop]
      · rintro rfl
        unfold decode_scan
        rw [if_neg hcond, hloop]

/-- Witness for C1 at a one-component frame whose scan header is empty, so
the very first MCU raises the caught `IndexError`. -/
theorem c1_amended_partial_decode_witness :
    (0 < mcu_width (JpegCtx.mk [⟨1, 1, 1, 0⟩] [] [] [] [] 8 8 (fun _ => 0)) ∧
     0 < mcu_height (JpegCtx.mk [⟨1, 1, 1, 0⟩] [] [] [] [] 8 8 (fun _ => 0))) ∧
    (∃ k, k ≤ (scan_mcus (JpegCtx.mk [⟨1, 1, 1, 0⟩] [] [] [] [] 8 8 (fun _ => 0))).length ∧
      ∃ st1, run_scan_ok (JpegCtx.mk [⟨1, 1, 1, 0⟩] [] [] [] [] 8 8 (fun _ => 0))
          (mcu_width (JpegCtx.mk [⟨1, 1, 1, 0⟩] [] [] [] [] 8 8 (fun _ => 0)))
          (mcu_height (JpegCtx.mk [⟨1, 1, 1, 0⟩] [] [] [] [] 8 8 (fun _ => 0)))
          ((scan_mcus (JpegCtx.mk [⟨1, 1, 1, 0⟩] [] [] [] [] 8 8 (fun _ => 0))).take k)
          (scan_init (JpegCtx.mk [⟨1, 1, 1, 0⟩] [] [] [] [] 8 8 (fun _ => 0)) []) = some st1 ∧
        (∀ px py, (∀ m ∈ (scan_mcus (JpegCtx.mk [⟨1, 1, 1, 0⟩] [] [] [] [] 8 8 (fun _ => 0))).take k,
            ¬ in_mcu_rect (mcu_width (JpegCtx.mk [⟨1, 1, 1, 0⟩] [] [] [] [] 8 8 (fun _ => 0)))
              (mcu_height (JpegCtx.mk [⟨1, 1, 1, 0⟩] [] [] [] [] 8 8 (fun _ => 0))) m px py) →
          rgb_at st1.1 px py = (0, 0, 0)) ∧
        ((k = (scan_mcus (JpegCtx.mk [⟨1, 1, 1, 0⟩] [] [] [] [] 8 8 (fun _ => 0))).length ∧
            decode_scan (JpegCtx.mk [⟨1, 1, 1, 0⟩] [] [] [] [] 8 8 (fun _ => 0)) [] =
              Except.ok st1.1) ∨
         (∃ m e, (scan_mcus (JpegCtx.mk [⟨1, 1, 1, 0⟩] [] [] [] [] 8 8 (fun _ => 0)))[k]? = some m ∧
           mcu_step (JpegCtx.mk [⟨1, 1, 1, 0⟩] [] [] [] [] 8 8 (fun _ => 0))
             (mcu_width (JpegCtx.mk [⟨1, 1, 1, 0⟩] [] [] [] [] 8 8 (fun _ => 0)))
             (mcu_height (JpegCtx.mk [⟨1, 1, 1, 0⟩] [] [] [] [] 8 8 (fun _ => 0))) m st1 =
             Except.error e ∧
           ((e = PyErr.indexError ∨ e = PyErr.keyError) →
             decode_scan (JpegCtx.mk [⟨1, 1, 1, 0⟩] [] [] [] [] 8 8 (fun _ => 0)) [] =
               Except.ok st1.1) ∧
           (e = PyErr.zeroDivisionError →
             decode_scan (JpegCtx.mk [⟨1, 1, 1, 0⟩] [] [] [] [] 8 8 (fun _ => 0)) [] =
               Except.error PyErr.zeroDivisionError)))) :=
  ⟨⟨by decide, by decide⟩,
   c1_amended_partial_decode (JpegCtx.mk [⟨1, 1, 1, 0⟩] [] [] [] [] 8 8 (fun _ => 0)) []
     (by decide) (by decide)⟩

end JPEGDecoder

/-! ## C6: PNG filter round-trip -/

namespace PNGDecoder

/-- Bytes of a byte list are below 256 at every `getD` position. -/
theorem getD_lt_256 (l : List Nat) (h : ∀ b ∈ l, b < 256) (i : Nat) : l.getD i 0 < 256 := by
  rcases Nat.lt_or_ge i l.length with hi | hi
  · exact h _ (mem_of_getD l i 0 hi)
  · rw [List.getD_eq_default _ _ hi]; omega

/-- The Paeth predictor returns one of its inputs, hence a byte. -/
theorem paeth_predictor_lt (a b c : Nat) (ha : a < 256) (hb : b < 256) (hc : c < 256) :
    paeth_predictor a b c < 256 := by
  unfold paeth_predictor
  dsimp only
  split_ifs <;> assumption

/-- Un-filtering undoes filtering on a single byte: adding the predictor
back modulo 256 recovers the original byte. -/
theorem filter_byte_roundtrip (a p : Nat) (ha : a < 256) (hp : p < 256) :
    ((((a : Int) - p) % 256).toNat + p) % 256 = a := by omega

/-- `getD` through a map over `List.range`. -/
theorem getD_map_range {α : Type _} (n : Nat) (f : Nat → α) (d : α) (i : Nat) :
    ((List.range n).map f).getD i d = if i < n then f i else d := by
  rcases Nat.lt_or_ge i n with hi | hi
  · rw [List.getD_eq_getElem _ _ (by simpa using hi), List.getElem_map, List.getElem_range,
      if_pos hi]
  · rw [List.getD_eq_default _ _ (by simpa using hi), if_neg (by omega)]

/-- A map over `List.range l.length` that agrees with `l` pointwise is
`l`. -/
theorem map_range_eq_self (l : List Nat) (g : Nat → Nat)
    (hg : ∀ i, i < l.length → g i = l.getD i 0) : (List.range l.length).map g = l := by
  apply List.ext_getElem (by simp)
  intro i h1 h2
  rw [List.getElem_map, List.getElem_range, hg i h2]
  exact List.getD_eq_getElem l 0 h2

/-- The filtered row has the row's length. -/
theorem filter_row_length (filter_type : Nat) (orig prev : List Nat) (bpp : Nat) :
    (filter_row filter_type orig prev bpp).length = orig.length := by
  simp [filter_row]

/-- The None-filtered byte at an in-range position. -/
theorem filter_row_getD_0 (orig prev : List Nat) (bpp i : Nat) (hi : i < orig.length) :
    (filter_row 0 orig prev bpp).getD i 0 =
      (((orig.getD i 0 : Int) - ((0 : Nat) : Int)) % 256).toNat := by
  unfold filter_row
  rw [getD_map_range, if_pos hi]
  norm_num

/-- The Sub-filtered byte at an in-range position. -/
theorem filter_row_getD_1 (orig prev : List Nat) (bpp i : Nat) (hi : i < orig.length) :
    (filter_row 1 orig prev bpp).getD i 0 =
      (((orig.getD i 0 : Int) -
        ((if bpp ≤ i then orig.getD (i - bpp) 0 else 0 : Nat) : Int)) % 256).toNat := by
  unfold filter_row
  rw [getD_map_range, if_pos hi]
  norm_num

/-- The Up-filtered byte at an in-range position. -/
theorem filter_row_getD_2 (orig prev : List Nat) (bpp i : Nat) (hi : i < orig.length) :
    (filter_row 2 orig prev bpp).getD i 0 =
      (((orig.getD i 0 : Int) - ((prev.getD i 0 : Nat) : Int)) % 256).toNat := by
  unfold filter_row
  rw [getD_map_range, if_pos hi]
  norm_num

/-- The Average-filtered byte at an in-range position. -/
theorem filter_row_getD_3 (orig prev : List Nat) (bpp i : Nat) (hi : i < orig.length) :
    (filter_row 3 orig prev bpp).getD i 0 =
      (((orig.getD i 0 : Int) -
        ((((if bpp ≤ i then orig.getD (i - bpp) 0 else 0) + prev.getD i 0) / 2 : Nat) :
          Int)) % 256).toNat := by
  unfold filter_row
  rw [getD_map_range, if_pos hi]
  norm_num

/-- The Paeth-filtered byte at an in-range position. -/
theorem filter_row_getD_4 (orig prev : List Nat) (bpp i : Nat) (hi : i < orig.length) :
    (filter_row 4 orig prev bpp).getD i 0 =
      (((orig.getD i 0 : Int) -
        ((paeth_predictor (if bpp ≤ i then orig.getD (i - bpp) 0 else 0)
          (prev.getD i 0) (if bpp ≤ i then prev.getD (i - bpp) 0 else 0) : Nat) :
          Int)) % 256).toNat := by
  unfold filter_row
  rw [getD_map_range, if_pos hi]
  norm_num

/-- Sub un-filtering inverts Sub filtering, pointwise. -/
theorem sub_at_filter (orig prev : List Nat) (bpp : Nat) (hb : 1 ≤ bpp)
    (ho : ∀ b ∈ orig, b < 256) :
    ∀ i, i < orig.length → sub_at bpp (filter_row 1 orig prev bpp) i = orig.getD i 0 := by
  intro i
  induction i using Nat.strong_induction_on with
  | _ i ih =>
    intro hi
    rw [sub_at]
    by_cases hbi : bpp ≤ i
    · rw [dif_pos ⟨by omega, hbi⟩, ih (i - bpp) (by omega) (by omega),
        filter_row_getD_1 orig prev bpp i hi]
      simp only [if_pos hbi]
      exact filter_byte_roundtrip _ _ (getD_lt_256 orig ho i) (getD_lt_256 orig ho (i - bpp))
    · rw [dif_neg (by omega), filter_row_getD_1 orig prev bpp i hi]
      simp only [if_neg hbi]
      have := getD_lt_256 orig ho i
      omega

/-- Up un-filtering inverts Up filtering, pointwise. -/
theorem up_at_filter (orig prev : List Nat) (bpp : Nat)
    (ho : ∀ b ∈ orig, b < 256) (hp : ∀ b ∈ prev, b < 256) :
    ∀ i, i < orig.length →
      ((filter_row 2 orig prev bpp).getD i 0 + prev.getD i 0) % 256 = orig.getD i 0 := by
  intro i hi
  rw [filter_row_getD_2 orig prev bpp i hi]
  exact filter_byte_roundtrip _ _ (getD_lt_256 orig ho i) (getD_lt_256 prev hp i)

/-- Average un-filtering inverts Average filtering, pointwise. -/
theorem avg_at_filter (orig prev : List Nat) (bpp : Nat) (hb : 1 ≤ bpp)
    (ho : ∀ b ∈ orig, b < 256) (hp : ∀ b ∈ prev, b < 256) :
    ∀ i, i < orig.length →
      avg_at bpp (filter_row 3 orig prev bpp) prev i = orig.getD i 0 := by
  intro i
  induction i using Nat.strong_induction_on with
  | _ i ih =>
    intro hi
    rw [avg_at]
    by_cases hbi : bpp ≤ i
    · rw [dif_pos ⟨by omega, hbi⟩, ih (i - bpp) (by omega) (by omega),
        filter_row_getD_3 orig prev bpp i hi]
      simp only [if_pos hbi]
      refine filter_byte_roundtrip _ _ (getD_lt_256 orig ho i) ?_
      have h1 := getD_lt_256 orig ho (i - bpp)
      have h2 := getD_lt_256 prev hp i
      omega
    · rw [dif_neg (by omega), filter_row_getD_3 orig prev bpp i hi]
      simp only [if_neg hbi]
      refine filter_byte_roundtrip _ _ (getD_lt_256 orig ho i) ?_
      have h2 := getD_lt_256 prev hp i
      omega

/-- Paeth un-filtering inverts Paeth filtering, pointwise. -/
theorem paeth_at_filter (orig prev : List Nat) (bpp : Nat) (hb : 1 ≤ bpp)
    (ho : ∀ b ∈ orig, b < 256) (hp : ∀ b ∈ prev, b < 256) :
    ∀ i, i < orig.length →
      paeth_at bpp (filter_row 4 orig prev bpp) prev i = orig.getD i 0 := by
  intro i
  induction i using Nat.strong_induction_on with
  | _ i ih =>
    intro hi
    rw [paeth_at]
    by_cases hbi : bpp ≤ i
    · rw [dif_pos ⟨by omega, hbi⟩, ih (i - bpp) (by omega) (by omega),
        filter_row_getD_4 orig prev bpp i hi]
      simp only [if_pos hbi]
      refine filter_byte_roundtrip _ _ (getD_lt_256 orig ho i) ?_
      exact paeth_predictor_lt _ _ _ (getD_lt_256 orig ho (i - bpp))
        (getD_lt_256 prev hp i) (getD_lt_256 prev hp (i - bpp))
    · rw [dif_neg (by omega), filter_row_getD_4 orig prev bpp i hi]
      simp only [if_neg hbi]
      refine filter_byte_roundtrip _ _ (getD_lt_256 orig ho i) ?_
      exact paeth_predictor_lt _ _ _ (by omega) (getD_lt_256 prev hp i) (by omega)

/-- C6.  For every scanline of bytes, every previous unfiltered row of the
same length, every `bpp ≥ 1` and every filter type in `{0,...,4}`,
applying the reference PNG filter and then `_unfilter_row` reproduces the
original bytes exactly; and for filter type 2 (Up) with an all-zero
previous row `_unfilter_row` is the identity on the scanline. -/
theorem c6_filter_roundtrip (filter_type : Nat) (orig prev : List Nat) (bpp : Nat)
    (hft : filter_type ≤ 4) (hb : 1 ≤ bpp)
    (ho : ∀ b ∈ orig, b < 256) (hp : ∀ b ∈ prev, b < 256)
    (hlen : prev.length = orig.length) :
    unfilter_row filter_type (filter_row filter_type orig prev bpp) prev bpp = orig ∧
    unfilter_row 2 orig (List.replicate orig.length 0) bpp = orig := by
  constructor
  · interval_cases filter_type
    · show filter_row 0 orig prev bpp = orig
      have hpt : ∀ i, i < orig.length → (filter_row 0 orig prev bpp).getD i 0 = orig.getD i 0 := by
        intro i hi
        rw [filter_row_getD_0 orig prev bpp i hi]
        have := getD_lt_256 orig ho i
        omega
      apply List.ext_getElem (by simp [filter_row_length])
      intro i h1 h2
      have h3 := hpt i h2
      rw [List.getD_eq_getElem _ _ h1, List.getD_eq_getElem _ _ h2] at h3
      exact h3
    · show (List.range (filter_row 1 orig prev bpp).length).map
          (sub_at bpp (filter_row 1 orig prev bpp)) = orig
      rw [filter_row_length]
      exact map_range_eq_self orig _ (sub_at_filter orig prev bpp hb ho)
    · show (List.range (filter_row 2 orig prev bpp).length).map
          (fun i => ((filter_row 2 orig prev bpp).getD i 0 + prev.getD i 0) % 256) = orig
      rw [filter_row_length]
      exact map_range_eq_self orig _ (up_at_filter orig prev bpp ho hp)
    · show (List.range (filter_row 3 orig prev bpp).length).map
          (avg_at bpp (filter_row 3 orig prev bpp) prev) = orig
      rw [filter_row_length]
      exact map_range_eq_self orig _ (avg_at_filter orig prev bpp hb ho hp)
    · show (List.range (filter_row 4 orig prev bpp).length).map
          (paeth_at bpp (filter_row 4 orig prev bpp) prev) = orig
      rw [filter_row_length]
      exact map_range_eq_self orig _ (paeth_at_filter orig prev bpp hb ho hp)
  · show (List.range orig.length).map
        (fun i => (orig.getD i 0 + (List.replicate orig.length 0).getD i 0) % 256) = orig
    refine map_range_eq_self orig _ (fun i hi => ?_)
    have hz : (List.replicate orig.length (0 : Nat)).getD i 0 = 0 := by
      rw [List.getD_eq_getElem _ _ (by simpa using hi), List.getElem_replicate]
    rw [hz]
    have := getD_lt_256 orig ho i
    omega

/-- Witness for C6 at a concrete Paeth-filtered scanline. -/
theorem c6_filter_roundtrip_witness :
    ((4 : Nat) ≤ 4 ∧ (1 : Nat) ≤ 1 ∧
     (∀ b ∈ [200, 3, 17], b < 256) ∧ (∀ b ∈ [9, 255, 0], b < 256) ∧
     ([9, 255, 0] : List Nat).length = ([200, 3, 17] : List Nat).length) ∧
    unfilter_row 4 (filter_row 4 [200, 3, 17] [9, 255, 0] 1) [9, 255, 0] 1 = [200, 3, 17] ∧
    unfilter_row 2 [200, 3, 17] (List.replicate ([200, 3, 17] : List Nat).length 0) 1 =
      [200, 3, 17] :=
  ⟨⟨by decide, by decide, by decide, by decide, by decide⟩,
   (c6_filter_roundtrip 4 [200, 3, 17] [9, 255, 0] 1 (by decide) (by decide)
      (by decide) (by decide) (by decide)).1,
   (c6_filter_roundtrip 4 [200, 3, 17] [9, 255, 0] 1 (by decide) (by decide)
      (by decide) (by decide) (by decide)).2⟩

end PNGDecoder

/-! ## C4 and C5: the Douglas-Peucker simplifier -/

namespace PathSimplifier

/-- `head?` as an indexed lookup. -/
theorem head?_eq_getElem_zero {α : Type _} (l : List α) : l.head? = l[0]? := by
  cases l <;> simp

/-- Membership from an indexed lookup. -/
theorem mem_of_getElem_opt {α : Type _} {l : List α} {i : Nat} {a : α}
    (h : l[i]? = some a) : a ∈ l := by
  obtain ⟨hlt, rfl⟩ := List.getElem?_eq_some.mp h
  exact List.getElem_mem hlt

/-- What the running-maximum scan returns: either no update happened (the
accumulator comes back and every element is at most `md`), or the result
is the first position of the list's strict maximum — the element there
equals the result, everything before it is strictly below, everything
after it is at most it. -/
theorem max_scan_spec :
    ∀ (ds : List ℚ) (i : Nat) (md : ℚ) (mi : Nat) (D : ℚ) (m : Nat),
      max_scan ds i (md, mi) = (D, m) →
      (D = md ∧ m = mi ∧ ∀ d ∈ ds, d ≤ md) ∨
      (∃ j, j < ds.length ∧ m = i + j ∧ ds[j]? = some D ∧ md < D ∧
        (∀ k d, k < j → ds[k]? = some d → d < D) ∧
        (∀ k d, j < k → ds[k]? = some d → d ≤ D)) := by
  intro ds
  induction ds with
  | nil =>
    intro i md mi D m h
    rw [max_scan] at h
    injection h with h1 h2
    left
    exact ⟨h1.symm, h2.symm, by simp⟩
  | cons d0 ds ih =>
    intro i md mi D m h
    rw [max_scan] at h
    by_cases hup : md < d0
    · rw [if_pos hup] at h
      rcases ih (i + 1) d0 i D m h with ⟨hD, hm, hall⟩ | ⟨j, hj, hm, hget, hlt, hbef, haft⟩
      · subst hD
        subst hm
        right
        refine ⟨0, by simp, by omega, by simp, hup, ?_, ?_⟩
        · intro k d hk _
          omega
        · intro k d hk hgetk
          cases k with
          | zero => omega
          | succ k1 =>
            rw [List.getElem?_cons_succ] at hgetk
            exact hall d (mem_of_getElem_opt hgetk)
      · right
        refine ⟨j + 1, by simpa using hj, by omega, by simpa using hget,
          lt_trans hup hlt, ?_, ?_⟩
        · intro k d hk hgetk
          cases k with
          | zero =>
            rw [List.getElem?_cons_zero] at hgetk
            injection hgetk with hd
            subst hd
            exact hlt
          | succ k1 =>
            rw [List.getElem?_cons_succ] at hgetk
            exact hbef k1 d (by omega) hgetk
        · intro k d hk hgetk
          cases k with
          | zero => omega
          | succ k1 =>
            rw [List.getElem?_cons_succ] at hgetk
            exact haft k1 d (by omega) hgetk
    · rw [if_neg hup] at h
      rcases ih (i + 1) md mi D m h with ⟨hD, hm, hall⟩ | ⟨j, hj, hm, hget, hlt, hbef, haft⟩
      · left
        refine ⟨hD, hm, ?_⟩
        intro d hd
        rcases List.mem_cons.mp hd with rfl | hd1
        · exact le_of_not_lt hup
        · exact hall d hd1
      · right
        refine ⟨j + 1, by simpa using hj, by omega, by simpa using hget, hlt, ?_, ?_⟩
        · intro k d hk hgetk
          cases k with
          | zero =>
            rw [List.getElem?_cons_zero] at hgetk
            injection hgetk with hd
            subst hd
            exact lt_of_le_of_lt (le_of_not_lt hup) hlt
          | succ k1 =>
            rw [List.getElem?_cons_succ] at hgetk
            exact hbef k1 d (by omega) hgetk
        · intro k d hk hgetk
          cases k with
          | zero => omega
          | succ k1 =>
            rw [List.getElem?_cons_succ] at hgetk
            exact haft k1 d (by omega) hgetk

/-- Conversely, the position of a strict first maximum determines the
scan's result. -/
theorem max_scan_eq (ds : List ℚ) (i : Nat) (md : ℚ) (mi : Nat) (j : Nat) (D : ℚ)
    (hj : ds[j]? = some D) (hmd : md < D)
    (hbef : ∀ k d, k < j → ds[k]? = some d → d < D)
    (haft : ∀ k d, j < k → ds[k]? = some d → d ≤ D) :
    max_scan ds i (md, mi) = (D, i + j) := by
  rcases hsc : max_scan ds i (md, mi) with ⟨D1, m1⟩
  rcases max_scan_spec ds i md mi D1 m1 hsc with ⟨hD, _, hall⟩ |
    ⟨j1, hj1, hm, hget, hlt, hbef1, haft1⟩
  · exfalso
    have hle := hall D (mem_of_getElem_opt hj)
    subst hD
    linarith
  · have hjj : j1 = j := by
      rcases Nat.lt_trichotomy j1 j with h | h | h
      · exfalso
        have h1 := hbef j1 D1 h hget
        have h2 := haft1 j D (by omega) hj
        linarith
      · exact h
      · exfalso
        have h1 := haft j1 D1 h hget
        have h2 := hbef1 j D (by omega) hj
        linarith
    subst hjj
    rw [hj] at hget
    injection hget with hD
    subst hD
    rw [hm]

end PathSimplifier

namespace PathSimplifier

/-- `head?` of a nonempty list is its `headI`. -/
theorem head?_eq_some_headI {α : Type _} [Inhabited α] (l : List α) (h : l ≠ []) :
    l.head? = some l.headI := by
  cases l with
  | nil => exact absurd rfl h
  | cons a t => rfl

/-- `getLast?` of a nonempty list is its `getLastD`. -/
theorem getLast?_eq_some_getLastD {α : Type _} (l : List α) (d : α) (h : l ≠ []) :
    l.getLast? = some (l.getLastD d) := by
  rw [List.getLastD_eq_getLast?]
  cases hg : l.getLast? with
  | none => exact absurd (List.getLast?_eq_none_iff.mp hg) h
  | some x => rfl

/-- Indexing `dropLast` inside its range. -/
theorem getElem_opt_dropLast {α : Type _} (l : List α) (i : Nat) (h : i < l.length - 1) :
    l.dropLast[i]? = l[i]? := by
  rw [List.dropLast_eq_take, List.getElem?_take, if_pos h]

/-- `head?` of an append with nonempty left part. -/
theorem head?_append_left {α : Type _} (x y : List α) (h : x ≠ []) :
    (x ++ y).head? = x.head? := by
  rw [head?_eq_getElem_zero, head?_eq_getElem_zero, List.getElem?_append,
    if_pos (by cases x with | nil => exact absurd rfl h | cons a t => simp)]

/-- The interior-distance list has `|pts| - 2` entries. -/
theorem interior_dists_length (pts : List Point) (s e : Point) :
    (interior_dists pts s e).length = pts.length - 2 := by
  simp [interior_dists]
  omega

/-- The interior-distance entry `j` is the distance of point `j + 1`. -/
theorem interior_dists_getElem (pts : List Point) (s e : Point) (j : Nat)
    (h : j < pts.length - 2) :
    (interior_dists pts s e)[j]? =
      (pts[j + 1]?).map (fun p => perpendicular_distance_sq p s e) := by
  unfold interior_dists
  rw [List.getElem?_map, getElem_opt_dropLast _ _ (by rw [List.length_drop]; omega),
    List.getElem?_drop, Nat.add_comm 1 j]

end PathSimplifier

namespace PathSimplifier

/-- `simplify_fuel` on fewer than 3 points returns them unchanged. -/
theorem simplify_fuel_lt3 (fuel : Nat) (pts : List Point) (eps : ℚ)
    (h : pts.length < 3) : simplify_fuel fuel pts eps = some pts := by
  rw [simplify_fuel.eq_def]
  dsimp only
  rw [if_pos h]

/-- One unfolding of `simplify_fuel` at successor fuel on 3 or more
points. -/
theorem simplify_fuel_succ (f : Nat) (pts : List Point) (eps : ℚ)
    (h3 : ¬ pts.length < 3) :
    simplify_fuel (f + 1) pts eps =
      (if dist_gt_eps
          (max_scan (interior_dists pts pts.headI (pts.getLastD pts.headI)) 1 (0, 0)).1 eps then
        match simplify_fuel f
            (pts.take ((max_scan (interior_dists pts pts.headI (pts.getLastD pts.headI))
              1 (0, 0)).2 + 1)) eps,
          simplify_fuel f
            (pts.drop (max_scan (interior_dists pts pts.headI (pts.getLastD pts.headI))
              1 (0, 0)).2) eps with
        | some left, some right => some (left.dropLast ++ right)
        | _, _ => none
      else some [pts.headI, pts.getLastD pts.headI]) := by
  rw [simplify_fuel.eq_def]
  dsimp only
  rw [if_neg h3]

/-- Structural facts about every `simplify_fuel` result: it is no longer
than the input, keeps the input's first and last points, has at least 2
points whenever the input does, and multiplies no point (each value
occurs at most as often as in the input). -/
theorem simplify_fuel_spec :
    ∀ (fuel : Nat) (pts : List Point) (eps : ℚ) (r : List Point),
      simplify_fuel fuel pts eps = some r →
      r.length ≤ pts.length ∧ r.head? = pts.head? ∧ r.getLast? = pts.getLast? ∧
      (2 ≤ pts.length → 2 ≤ r.length) ∧ (∀ v, r.count v ≤ pts.count v) := by
  intro fuel
  induction fuel with
  | zero =>
    intro pts eps r h
    by_cases h3 : pts.length < 3
    · rw [simplify_fuel_lt3 _ _ _ h3] at h
      injection h with h
      subst h
      exact ⟨le_refl _, rfl, rfl, fun h2 => h2, fun v => le_refl _⟩
    · rw [simplify_fuel.eq_def] at h
      dsimp only at h
      rw [if_neg h3] at h
      exact Option.noConfusion h
  | succ f ih =>
    intro pts eps r h
    by_cases h3 : pts.length < 3
    · rw [simplify_fuel_lt3 _ _ _ h3] at h
      injection h with h
      subst h
      exact ⟨le_refl _, rfl, rfl, fun h2 => h2, fun v => le_refl _⟩
    · have hn : 3 ≤ pts.length := by omega
      have hne : pts ≠ [] := by
        intro hcon
        rw [hcon] at hn
        simp at hn
      rw [simplify_fuel_succ f pts eps h3] at h
      rcases hscan : max_scan (interior_dists pts pts.headI (pts.getLastD pts.headI))
          1 (0, 0) with ⟨D, m⟩
      rw [hscan] at h
      dsimp only at h
      have hm : m ≤ pts.length - 2 := by
        rcases max_scan_spec _ _ _ _ _ _ hscan with ⟨_, hm0, _⟩ | ⟨j, hj, hmj, _, _, _, _⟩
        · omega
        · rw [interior_dists_length] at hj
          omega
      have hmlt : m < pts.length := by omega
      obtain ⟨pm, hpm⟩ : ∃ x, pts[m]? = some x :=
        ⟨pts[m], List.getElem?_eq_getElem hmlt⟩
      by_cases hgt : dist_gt_eps D eps = true
      · rw [if_pos hgt] at h
        cases hl : simplify_fuel f (pts.take (m + 1)) eps with
        | none =>
          rw [hl] at h
          exact Option.noConfusion h
        | some left =>
          rw [hl] at h
          cases hr : simplify_fuel f (pts.drop m) eps with
          | none =>
            rw [hr] at h
            exact Option.noConfusion h
          | some right =>
            rw [hr] at h
            injection h with h
            subst h
            obtain ⟨hlen_l, hhead_l, hlast_l, h2_l, hcount_l⟩ := ih _ _ _ hl
            obtain ⟨hlen_r, hhead_r, hlast_r, h2_r, hcount_r⟩ := ih _ _ _ hr
            have htl : (pts.take (m + 1)).length = m + 1 := by
              rw [List.length_take]
              omega
            have hdl : (pts.drop m).length = pts.length - m := List.length_drop m pts
            have h2r : 2 ≤ right.length := by
              refine h2_r ?_
              rw [hdl]
              omega
            have hrne : right ≠ [] := by
              intro hcon
              rw [hcon] at h2r
              simp at h2r
            have hhead_take : (pts.take (m + 1)).head? = pts.head? := by
              rw [head?_eq_getElem_zero, head?_eq_getElem_zero, List.getElem?_take,
                if_pos (by omega)]
            have hlast_drop : (pts.drop m).getLast? = pts.getLast? := by
              rw [List.getLast?_eq_getElem?, List.getLast?_eq_getElem?, List.getElem?_drop, hdl]
              congr 1
              omega
            have hlast_take : (pts.take (m + 1)).getLast? = some pm := by
              rw [List.getLast?_eq_getElem?, htl, List.getElem?_take,
                if_pos (by omega), Nat.add_sub_cancel]
              exact hpm
            have hhead_drop : (pts.drop m).head? = some pm := by
              rw [head?_eq_getElem_zero, List.getElem?_drop, Nat.add_zero]
              exact hpm
            have hlen_l1 : left.length ≤ m + 1 := by
              rw [htl] at hlen_l
              exact hlen_l
            have hlen_r1 : right.length ≤ pts.length - m := by
              rw [hdl] at hlen_r
              exact hlen_r
            refine ⟨?_, ?_, ?_, ?_, ?_⟩
            · rw [List.length_append, List.length_dropLast]
              omega
            · by_cases hl2 : 2 ≤ left.length
              · have hd_ne : left.dropLast ≠ [] := by
                  refine List.ne_nil_of_length_pos ?_
                  rw [List.length_dropLast]
                  omega
                rw [head?_append_left _ _ hd_ne, head?_eq_getElem_zero,
                  getElem_opt_dropLast _ _ (by omega), ← head?_eq_getElem_zero,
                  hhead_l, hhead_take]
              · have hm0 : m = 0 := by
                  by_contra hm1
                  refine hl2 (h2_l ?_)
                  rw [htl]
                  omega
                have hdnil : left.dropLast = [] := by
                  refine List.length_eq_zero.mp ?_
                  rw [List.length_dropLast]
                  omega
                subst hm0
                rw [hdnil, List.nil_append, hhead_r, List.drop_zero]
            · rw [List.getLast?_append_of_ne_nil _ hrne, hlast_r, hlast_drop]
            · intro _
              rw [List.length_append]
              omega
            · intro v
              have hcl := hcount_l v
              have hcr := hcount_r v
              have hlne : left ≠ [] := by
                have hh : left.head? = some pts.headI := by
                  rw [hhead_l, hhead_take, head?_eq_some_headI pts hne]
                intro hcon
                rw [hcon] at hh
                exact Option.noConfusion hh
              have hsplit := List.dropLast_append_getLast hlne
              have hgl : left.getLast hlne = pm := by
                have h1 : left.getLast? = some (left.getLast hlne) :=
                  List.getLast?_eq_getLast left hlne
                rw [hlast_l, hlast_take] at h1
                injection h1 with h1
                exact h1.symm
              have hsplit2 : left.dropLast ++ [pm] = left := by
                rw [← hgl]
                exact hsplit
              have hclsplit : left.dropLast.count v + List.count v [pm] = left.count v := by
                conv_rhs => rw [← hsplit2]
                rw [List.count_append]
              have htake1 : pts.take (m + 1) = pts.take m ++ [pm] := by
                rw [List.take_succ, hpm]
                rfl
              have hover : (pts.take (m + 1)).count v + (pts.drop m).count v =
                  pts.count v + List.count v [pm] := by
                conv_rhs => rw [← List.take_append_drop m pts]
                rw [htake1, List.count_append, List.count_append]
                omega
              rw [List.count_append]
              omega
      · rw [if_neg hgt] at h
        injection h with h
        subst h
        have he : [pts.headI, pts.getLastD pts.headI].getLast? =
            some (pts.getLastD pts.headI) := rfl
        refine ⟨by show 2 ≤ pts.length; omega, ?_, ?_, ?_, ?_⟩
        · rw [head?_eq_some_headI pts hne]
          rfl
        · rw [he, getLast?_eq_some_getLastD pts pts.headI hne]
        · intro _
          simp
        · intro v
          have hsub : List.Sublist [pts.headI, pts.getLastD pts.headI] pts := by
            cases pts with
            | nil => exact absurd rfl hne
            | cons p0 rest =>
              have hr_ne : rest ≠ [] := by
                intro hcon
                rw [hcon] at hn
                simp at hn
              have hgd : (p0 :: rest).getLastD (p0 :: rest).headI = rest.getLast hr_ne := by
                have h1 : (p0 :: rest).getLast? =
                    some ((p0 :: rest).getLastD (p0 :: rest).headI) :=
                  getLast?_eq_some_getLastD _ _ (by simp)
                have h2 : (p0 :: rest).getLast? = rest.getLast? := by
                  rw [show p0 :: rest = [p0] ++ rest from rfl,
                    List.getLast?_append_of_ne_nil _ hr_ne]
                rw [h2, List.getLast?_eq_getLast rest hr_ne] at h1
                injection h1 with h1
                exact h1.symm
              show List.Sublist [(p0 :: rest).headI, (p0 :: rest).getLastD (p0 :: rest).headI]
                (p0 :: rest)
              rw [hgd]
              show List.Sublist (p0 :: [rest.getLast hr_ne]) (p0 :: rest)
              exact List.Sublist.cons₂ p0
                (List.singleton_sublist.mpr (List.getLast_mem hr_ne))
          exact hsub.count_le v

end PathSimplifier

namespace PathSimplifier

/-- When the split branch is taken with `ε ≥ 0`, the scan found a strictly
positive first maximum at an interior index: `1 ≤ m ≤ |pts| - 2`, the
point at `m` realizes the maximum `D`, interior points before `m` are
strictly closer, and interior points after `m` are at most `D` away. -/
theorem scan_branch_spec (pts : List Point) (s e : Point) (eps : ℚ) (heps : 0 ≤ eps)
    (D : ℚ) (m : Nat)
    (hscan : max_scan (interior_dists pts s e) 1 (0, 0) = (D, m))
    (hgt : dist_gt_eps D eps = true) :
    0 < D ∧ 1 ≤ m ∧ m ≤ pts.length - 2 ∧
    (∀ p, pts[m]? = some p → perpendicular_distance_sq p s e = D) ∧
    (∀ i p, 1 ≤ i → i < m → pts[i]? = some p → perpendicular_distance_sq p s e < D) ∧
    (∀ i p, m < i → i ≤ pts.length - 2 → pts[i]? = some p →
      perpendicular_distance_sq p s e ≤ D) := by
  have hD : 0 < D := by
    unfold dist_gt_eps at hgt
    rw [if_neg (not_lt.mpr heps)] at hgt
    have h1 : eps * eps < D := of_decide_eq_true hgt
    nlinarith
  rcases max_scan_spec _ _ _ _ _ _ hscan with ⟨hD0, _, _⟩ | ⟨j, hj, hm, hget, _, hbef, haft⟩
  · exfalso
    rw [hD0] at hD
    exact lt_irrefl 0 hD
  · rw [interior_dists_length] at hj
    refine ⟨hD, by omega, by omega, ?_, ?_, ?_⟩
    · intro p hp
      rw [interior_dists_getElem pts s e j hj, show j + 1 = m from by omega, hp] at hget
      injection hget with hget
    · intro i p hi1 hi2 hp
      have hik : i - 1 < j := by omega
      have hgetk : (interior_dists pts s e)[i - 1]? =
          some (perpendicular_distance_sq p s e) := by
        rw [interior_dists_getElem pts s e (i - 1) (by omega),
          show i - 1 + 1 = i from by omega, hp]
        rfl
      exact hbef (i - 1) _ hik hgetk
    · intro i p hi1 hi2 hp
      have hgetk : (interior_dists pts s e)[i - 1]? =
          some (perpendicular_distance_sq p s e) := by
        rw [interior_dists_getElem pts s e (i - 1) (by omega),
          show i - 1 + 1 = i from by omega, hp]
        rfl
      exact haft (i - 1) _ (by omega) hgetk

/-- With `ε ≥ 0`, fuel `|pts|` (or more) never runs out: the source
recursion terminates. -/
theorem simplify_fuel_isSome :
    ∀ (fuel : Nat) (pts : List Point) (eps : ℚ), 0 ≤ eps → pts.length ≤ fuel →
      (simplify_fuel fuel pts eps).isSome = true := by
  intro fuel
  induction fuel with
  | zero =>
    intro pts eps heps hlen
    rw [simplify_fuel_lt3 _ _ _ (by omega)]
    rfl
  | succ f ih =>
    intro pts eps heps hlen
    by_cases h3 : pts.length < 3
    · rw [simplify_fuel_lt3 _ _ _ h3]
      rfl
    · rw [simplify_fuel_succ f pts eps h3]
      rcases hscan : max_scan (interior_dists pts pts.headI (pts.getLastD pts.headI))
          1 (0, 0) with ⟨D, m⟩
      dsimp only
      by_cases hgt : dist_gt_eps D eps = true
      · rw [if_pos hgt]
        obtain ⟨_, hm1, hm2, _, _, _⟩ :=
          scan_branch_spec pts _ _ eps heps D m hscan hgt
        have hl := ih (pts.take (m + 1)) eps heps (by rw [List.length_take]; omega)
        have hr := ih (pts.drop m) eps heps (by rw [List.length_drop]; omega)
        obtain ⟨left, hl⟩ := Option.isSome_iff_exists.mp hl
        obtain ⟨right, hr⟩ := Option.isSome_iff_exists.mp hr
        rw [hl, hr]
        rfl
      · rw [if_neg hgt]
        rfl

/-- With `ε ≥ 0` the result does not depend on the fuel, as long as the
fuel is at least the list length. -/
theorem simplify_fuel_congr :
    ∀ (n : Nat) (pts : List Point), pts.length = n → ∀ (f g : Nat) (eps : ℚ), 0 ≤ eps →
      pts.length ≤ f → pts.length ≤ g →
      simplify_fuel f pts eps = simplify_fuel g pts eps := by
  intro n
  induction n using Nat.strong_induction_on with
  | _ n SIH =>
    intro pts hn f g eps heps hf hg
    by_cases h3 : pts.length < 3
    · rw [simplify_fuel_lt3 _ _ _ h3, simplify_fuel_lt3 _ _ _ h3]
    · obtain ⟨f1, rfl⟩ : ∃ f1, f = f1 + 1 := by
        cases f with
        | zero => omega
        | succ f1 => exact ⟨f1, rfl⟩
      obtain ⟨g1, rfl⟩ : ∃ g1, g = g1 + 1 := by
        cases g with
        | zero => omega
        | succ g1 => exact ⟨g1, rfl⟩
      rw [simplify_fuel_succ f1 pts eps h3, simplify_fuel_succ g1 pts eps h3]
      rcases hscan : max_scan (interior_dists pts pts.headI (pts.getLastD pts.headI))
          1 (0, 0) with ⟨D, m⟩
      dsimp only
      by_cases hgt : dist_gt_eps D eps = true
      · rw [if_pos hgt, if_pos hgt]
        obtain ⟨_, hm1, hm2, _, _, _⟩ :=
          scan_branch_spec pts _ _ eps heps D m hscan hgt
        have h1 : simplify_fuel f1 (pts.take (m + 1)) eps =
            simplify_fuel g1 (pts.take (m + 1)) eps :=
          SIH (pts.take (m + 1)).length (by rw [List.length_take]; omega) _ rfl f1 g1 eps
            heps (by rw [List.length_take]; omega) (by rw [List.length_take]; omega)
        have h2 : simplify_fuel f1 (pts.drop m) eps = simplify_fuel g1 (pts.drop m) eps :=
          SIH (pts.drop m).length (by rw [List.length_drop]; omega) _ rfl f1 g1 eps
            heps (by rw [List.length_drop]; omega) (by rw [List.length_drop]; omega)
        rw [h1, h2]
      · rw [if_neg hgt, if_neg hgt]

end PathSimplifier

namespace PathSimplifier

/-- The chord's start point is at squared distance 0 from the chord: for a
degenerate chord the source measures the point-to-point distance, which is
0; otherwise the projection parameter is `t = 0` and the projection is the
point itself. -/
theorem pd_sq_start (s e : Point) : perpendicular_distance_sq s s e = 0 := by
  simp only [perpendicular_distance_sq]
  by_cases h : e.x - s.x = 0 ∧ e.y - s.y = 0
  · rw [if_pos h]
    ring
  · rw [if_neg h]
    have h1 : (s.x - s.x) * (e.x - s.x) + (s.y - s.y) * (e.y - s.y) = 0 := by ring
    rw [h1, zero_div]
    have h2 : max (0 : ℚ) (min 1 0) = 0 := by norm_num
    rw [h2]
    ring

/-- The chord's end point is at squared distance 0 from the chord: the
projection parameter is `t = 1` there. -/
theorem pd_sq_end (s e : Point) : perpendicular_distance_sq e s e = 0 := by
  simp only [perpendicular_distance_sq]
  by_cases h : e.x - s.x = 0 ∧ e.y - s.y = 0
  · rw [if_pos h, h.1, h.2]
    ring
  · rw [if_neg h]
    have hlen : (e.x - s.x) * (e.x - s.x) + (e.y - s.y) * (e.y - s.y) ≠ 0 := by
      intro hc
      refine h ⟨mul_self_eq_zero.mp ?_, mul_self_eq_zero.mp ?_⟩
      · nlinarith [mul_self_nonneg (e.x - s.x), mul_self_nonneg (e.y - s.y)]
      · nlinarith [mul_self_nonneg (e.x - s.x), mul_self_nonneg (e.y - s.y)]
    rw [div_self hlen]
    have h2 : max (0 : ℚ) (min 1 1) = 1 := by norm_num
    rw [h2]
    ring

end PathSimplifier

namespace PathSimplifier

/-- Results of the simplifier are fixed points: with `ε ≥ 0`, running the
recursion again on its own output returns the output unchanged.  The split
point of the re-run is recovered by `max_scan_eq`: the kept point `pm` at
the original split index `m` still realizes the strict first maximum among
the surviving interior points, because every other survivor came from
strictly before `m` (distance `< D`), from after `m` (distance `≤ D`), or
is one of the chord endpoints (distance `0`). -/
theorem simplify_fuel_fixed :
    ∀ (n : Nat) (pts : List Point), pts.length = n → ∀ (eps : ℚ), 0 ≤ eps →
      ∀ r, simplify_fuel pts.length pts eps = some r →
      simplify_fuel r.length r eps = some r := by
  intro n
  induction n using Nat.strong_induction_on with
  | _ n SIH =>
    intro pts hn eps heps r h
    by_cases h3 : pts.length < 3
    · rw [simplify_fuel_lt3 _ _ _ h3] at h
      injection h with h
      subst h
      exact simplify_fuel_lt3 _ _ _ h3
    · have hnn : 3 ≤ pts.length := by omega
      have hne : pts ≠ [] := by
        intro hc
        rw [hc] at hnn
        simp at hnn
      obtain ⟨n1, hn1⟩ : ∃ n1, pts.length = n1 + 1 := ⟨pts.length - 1, by omega⟩
      rw [hn1, simplify_fuel_succ n1 pts eps h3] at h
      rcases hscan : max_scan (interior_dists pts pts.headI (pts.getLastD pts.headI)) 1 (0, 0)
          with ⟨D, m⟩
      rw [hscan] at h
      dsimp only at h
      by_cases hgt : dist_gt_eps D eps = true
      · rw [if_pos hgt] at h
        obtain ⟨hD, hm1, hm2, hpdm, hbef, haft⟩ :=
          scan_branch_spec pts _ _ eps heps D m hscan hgt
        cases hl : simplify_fuel n1 (pts.take (m + 1)) eps with
        | none =>
          rw [hl] at h
          exact Option.noConfusion h
        | some left =>
          rw [hl] at h
          cases hr : simplify_fuel n1 (pts.drop m) eps with
          | none =>
            rw [hr] at h
            exact Option.noConfusion h
          | some right =>
            rw [hr] at h
            injection h with h
            subst h
            set s := pts.headI with hs_def
            set e := pts.getLastD s with he_def
            obtain ⟨hlen_l, hhead_l, hlast_l, h2_l, hcount_l⟩ := simplify_fuel_spec _ _ _ _ hl
            obtain ⟨hlen_r, hhead_r, hlast_r, h2_r, hcount_r⟩ := simplify_fuel_spec _ _ _ _ hr
            have htl : (pts.take (m + 1)).length = m + 1 := by
              rw [List.length_take]
              omega
            have hdl : (pts.drop m).length = pts.length - m := List.length_drop m pts
            have h2l : 2 ≤ left.length := h2_l (by rw [htl]; omega)
            have h2r : 2 ≤ right.length := h2_r (by rw [hdl]; omega)
            have hmlt : m < pts.length := by omega
            obtain ⟨pm, hpm⟩ : ∃ x, pts[m]? = some x :=
              ⟨pts[m], List.getElem?_eq_getElem hmlt⟩
            have hpdpm : perpendicular_distance_sq pm s e = D := hpdm pm hpm
            have hhead_pts : pts.head? = some s := head?_eq_some_headI pts hne
            have hlast_pts : pts.getLast? = some e := getLast?_eq_some_getLastD pts s hne
            have hhead_take : (pts.take (m + 1)).head? = pts.head? := by
              rw [head?_eq_getElem_zero, head?_eq_getElem_zero, List.getElem?_take,
                if_pos (by omega)]
            have hlast_drop : (pts.drop m).getLast? = pts.getLast? := by
              rw [List.getLast?_eq_getElem?, List.getLast?_eq_getElem?, List.getElem?_drop, hdl]
              congr 1
              omega
            have hlast_take : (pts.take (m + 1)).getLast? = some pm := by
              rw [List.getLast?_eq_getElem?, htl, List.getElem?_take,
                if_pos (by omega), Nat.add_sub_cancel]
              exact hpm
            have hhead_drop : (pts.drop m).head? = some pm := by
              rw [head?_eq_getElem_zero, List.getElem?_drop, Nat.add_zero]
              exact hpm
            have hheadl : left.head? = some s := by rw [hhead_l, hhead_take, hhead_pts]
            have hlastl : left.getLast? = some pm := by rw [hlast_l, hlast_take]
            have hheadr : right.head? = some pm := by rw [hhead_r, hhead_drop]
            have hlastr : right.getLast? = some e := by rw [hlast_r, hlast_drop, hlast_pts]
            have hlne : left ≠ [] := by
              intro hc
              rw [hc] at hheadl
              exact Option.noConfusion hheadl
            have hrne : right ≠ [] := by
              intro hc
              rw [hc] at hheadr
              exact Option.noConfusion hheadr
            have hgl : left.getLast hlne = pm := by
              have h1 := List.getLast?_eq_getLast left hlne
              rw [hlastl] at h1
              injection h1 with h1
              exact h1.symm
            have hsplit2 : left.dropLast ++ [pm] = left := by
              rw [← hgl]
              exact List.dropLast_append_getLast hlne
            have hpm_not_take : pm ∉ pts.take m := by
              intro hmem
              obtain ⟨j, hjlt, hjeq⟩ := List.getElem_of_mem hmem
              have hjm : j < m := by
                have h1 := hjlt
                rw [List.length_take] at h1
                omega
              have hj2 : pts[j]? = some pm := by
                have h1 : (pts.take m)[j]? = some pm := by
                  rw [List.getElem?_eq_getElem hjlt, hjeq]
                rw [List.getElem?_take, if_pos hjm] at h1
                exact h1
              rcases Nat.eq_zero_or_pos j with hj0 | hj0
              · subst hj0
                have hps : pts[0]? = some s := by
                  rw [← head?_eq_getElem_zero]
                  exact hhead_pts
                rw [hps] at hj2
                injection hj2 with hj2
                rw [← hj2, pd_sq_start] at hpdpm
                exact absurd hpdpm.symm (ne_of_gt hD)
              · have h1 := hbef j pm hj0 hjm hj2
                rw [hpdpm] at h1
                exact lt_irrefl D h1
            have hcount_pm_take : (pts.take (m + 1)).count pm = 1 := by
              have htake1 : pts.take (m + 1) = pts.take m ++ [pm] := by
                rw [List.take_succ, hpm]
                rfl
              rw [htake1, List.count_append, List.count_eq_zero.mpr hpm_not_take]
              simp
            have hpm_count_left : left.count pm = 1 := by
              have h1 : left.count pm ≤ 1 := by
                have h2 := hcount_l pm
                rw [hcount_pm_take] at h2
                exact h2
              have h2 : 0 < left.count pm :=
                List.count_pos_iff.mpr (hgl ▸ List.getLast_mem hlne)
              omega
            have hpm_not_dl : pm ∉ left.dropLast := by
              intro hmem
              have h1 : 0 < left.dropLast.count pm := List.count_pos_iff.mpr hmem
              have h2 : left.dropLast.count pm + [pm].count pm = left.count pm := by
                rw [← List.count_append, hsplit2]
              have h3 : [pm].count pm = 1 := by simp
              omega
            have hpd_left : ∀ p ∈ left.dropLast, perpendicular_distance_sq p s e < D := by
              intro p hp
              have hpl : p ∈ left := (List.dropLast_sublist left).subset hp
              have hpt : p ∈ pts.take (m + 1) := by
                have hc := hcount_l p
                have h1 : 0 < left.count p := List.count_pos_iff.mpr hpl
                exact List.count_pos_iff.mp (by omega)
              obtain ⟨j, hjlt, hjeq⟩ := List.getElem_of_mem hpt
              have hjm : j < m + 1 := by
                rw [htl] at hjlt
                exact hjlt
              have hj2 : pts[j]? = some p := by
                have h1 : (pts.take (m + 1))[j]? = some p := by
                  rw [List.getElem?_eq_getElem hjlt, hjeq]
                rw [List.getElem?_take, if_pos hjm] at h1
                exact h1
              rcases Nat.eq_zero_or_pos j with hj0 | hj0
              · subst hj0
                have hps : pts[0]? = some s := by
                  rw [← head?_eq_getElem_zero]
                  exact hhead_pts
                rw [hps] at hj2
                injection hj2 with hj2
                rw [← hj2, pd_sq_start]
                exact hD
              · rcases Nat.lt_or_ge j m with hjm' | hjm'
                · exact hbef j p hj0 hjm' hj2
                · have hjm2 : j = m := by omega
                  subst hjm2
                  rw [hpm] at hj2
                  injection hj2 with hj2
                  subst hj2
                  exact absurd hp hpm_not_dl
            have hpd_right : ∀ p ∈ right, perpendicular_distance_sq p s e ≤ D := by
              intro p hp
              have hpt : p ∈ pts.drop m := by
                have hc := hcount_r p
                have h1 : 0 < right.count p := List.count_pos_iff.mpr hp
                exact List.count_pos_iff.mp (by omega)
              obtain ⟨k, hklt, hkeq⟩ := List.getElem_of_mem hpt
              have hkd : k < pts.length - m := by
                rw [hdl] at hklt
                exact hklt
              have hj2 : pts[m + k]? = some p := by
                have h1 : (pts.drop m)[k]? = some p := by
                  rw [List.getElem?_eq_getElem hklt, hkeq]
                rw [List.getElem?_drop] at h1
                exact h1
              rcases Nat.eq_zero_or_pos k with hk0 | hk0
              · subst hk0
                rw [Nat.add_zero, hpm] at hj2
                injection hj2 with hj2
                subst hj2
                exact le_of_eq hpdpm
              · rcases Nat.lt_or_ge (m + k) (pts.length - 1) with hke | hke
                · exact haft (m + k) p (by omega) (by omega) hj2
                · have hkeq2 : m + k = pts.length - 1 := by omega
                  have hpe : pts[m + k]? = some e := by
                    rw [hkeq2, ← List.getLast?_eq_getElem? pts]
                    exact hlast_pts
                  rw [hpe] at hj2
                  injection hj2 with hj2
                  subst hj2
                  rw [pd_sq_end]
                  exact le_of_lt hD
            have hdll : left.dropLast.length = left.length - 1 := List.length_dropLast left
            have hr'len : (left.dropLast ++ right).length = left.length - 1 + right.length := by
              rw [List.length_append, hdll]
            have hr'3 : 3 ≤ (left.dropLast ++ right).length := by
              rw [hr'len]
              omega
            have hr'ne : (left.dropLast ++ right) ≠ [] :=
              List.ne_nil_of_length_pos (by omega)
            have hr'_idx_left : ∀ i, i < left.length - 1 →
                (left.dropLast ++ right)[i]? = left.dropLast[i]? := by
              intro i hi
              rw [List.getElem?_append, if_pos (by rw [hdll]; exact hi)]
            have hr'_q : (left.dropLast ++ right)[left.length - 1]? = some pm := by
              rw [List.getElem?_append, if_neg (by rw [hdll]; omega), hdll, Nat.sub_self,
                ← head?_eq_getElem_zero]
              exact hheadr
            have hr'_idx_right : ∀ k,
                (left.dropLast ++ right)[left.length - 1 + k]? = right[k]? := by
              intro k
              rw [List.getElem?_append, if_neg (by rw [hdll]; omega), hdll]
              congr 1
              omega
            have hr'head : (left.dropLast ++ right).head? = some s := by
              have hdl_ne : left.dropLast ≠ [] := by
                intro hc
                have h0 : left.dropLast.length = 0 := by rw [hc]; rfl
                rw [hdll] at h0
                omega
              rw [head?_append_left _ _ hdl_ne, head?_eq_getElem_zero,
                getElem_opt_dropLast _ _ (by omega), ← head?_eq_getElem_zero]
              exact hheadl
            have hr'last : (left.dropLast ++ right).getLast? = some e := by
              rw [List.getLast?_append_of_ne_nil _ hrne]
              exact hlastr
            have hr'headI : (left.dropLast ++ right).headI = s := by
              have h1 := head?_eq_some_headI _ hr'ne
              rw [hr'head] at h1
              injection h1 with h1
              exact h1.symm
            have hr'lastD :
                (left.dropLast ++ right).getLastD ((left.dropLast ++ right).headI) = e := by
              have h1 := getLast?_eq_some_getLastD _ ((left.dropLast ++ right).headI) hr'ne
              rw [hr'last] at h1
              injection h1 with h1
              exact h1.symm
            have hids_len : (interior_dists (left.dropLast ++ right) s e).length =
                (left.dropLast ++ right).length - 2 := interior_dists_length _ _ _
            have hgetq : (interior_dists (left.dropLast ++ right) s e)[left.length - 1 - 1]? =
                some D := by
              rw [interior_dists_getElem _ s e _ (by rw [hr'len]; omega),
                show left.length - 1 - 1 + 1 = left.length - 1 from by omega, hr'_q]
              have hmap : Option.map (fun p => perpendicular_distance_sq p s e) (some pm) =
                  some (perpendicular_distance_sq pm s e) := rfl
              rw [hmap, hpdpm]
            have hbef2 : ∀ k d, k < left.length - 1 - 1 →
                (interior_dists (left.dropLast ++ right) s e)[k]? = some d → d < D := by
              intro k d hk hkd
              rw [interior_dists_getElem _ s e k (by rw [hr'len]; omega),
                hr'_idx_left (k + 1) (by omega)] at hkd
              cases hp : left.dropLast[k + 1]? with
              | none =>
                rw [hp] at hkd
                exact Option.noConfusion hkd
              | some p =>
                rw [hp] at hkd
                have hmap : Option.map (fun p => perpendicular_distance_sq p s e) (some p) =
                    some (perpendicular_distance_sq p s e) := rfl
                rw [hmap] at hkd
                injection hkd with hkd
                rw [← hkd]
                exact hpd_left p (mem_of_getElem_opt hp)
            have haft2 : ∀ k d, left.length - 1 - 1 < k →
                (interior_dists (left.dropLast ++ right) s e)[k]? = some d → d ≤ D := by
              intro k d hk hkd
              have hk2 : k < (left.dropLast ++ right).length - 2 := by
                by_contra hc
                have h0 : (interior_dists (left.dropLast ++ right) s e)[k]? = none :=
                  List.getElem?_eq_none (by rw [hids_len]; omega)
                rw [h0] at hkd
                exact Option.noConfusion hkd
              rw [interior_dists_getElem _ s e k hk2] at hkd
              have hidx : (left.dropLast ++ right)[k + 1]? =
                  right[k + 1 - (left.length - 1)]? := by
                have h1 := hr'_idx_right (k + 1 - (left.length - 1))
                rw [show left.length - 1 + (k + 1 - (left.length - 1)) = k + 1
                  from by omega] at h1
                exact h1
              rw [hidx] at hkd
              cases hp : right[k + 1 - (left.length - 1)]? with
              | none =>
                rw [hp] at hkd
                exact Option.noConfusion hkd
              | some p =>
                rw [hp] at hkd
                have hmap : Option.map (fun p => perpendicular_distance_sq p s e) (some p) =
                    some (perpendicular_distance_sq p s e) := rfl
                rw [hmap] at hkd
                injection hkd with hkd
                rw [← hkd]
                exact hpd_right p (mem_of_getElem_opt hp)
            have hscan2 : max_scan (interior_dists (left.dropLast ++ right) s e) 1 (0, 0) =
                (D, left.length - 1) := by
              have h1 := max_scan_eq (interior_dists (left.dropLast ++ right) s e) 1 0 0
                (left.length - 1 - 1) D hgetq hD hbef2 haft2
              rw [show 1 + (left.length - 1 - 1) = left.length - 1 from by omega] at h1
              exact h1
            have h1q : right.take 1 = [pm] := by
              cases right with
              | nil => exact absurd rfl hrne
              | cons a t =>
                injection hheadr with h2
                rw [show (a :: t).take 1 = [a] from rfl, h2]
            have htake_r : (left.dropLast ++ right).take (left.length - 1 + 1) = left := by
              have hul : left.dropLast.length ≤ left.length - 1 + 1 := by
                rw [hdll]
                omega
              rw [List.take_append_eq_append_take, List.take_of_length_le hul, hdll,
                show left.length - 1 + 1 - (left.length - 1) = 1 from by omega, h1q]
              exact hsplit2
            have hdrop_r : (left.dropLast ++ right).drop (left.length - 1) = right := by
              have h1 : left.dropLast.drop (left.length - 1) = [] := by
                rw [← hdll]
                exact List.drop_length _
              rw [List.drop_append_eq_append_drop, h1, hdll, Nat.sub_self, List.nil_append,
                List.drop_zero]
            have hleft_sim : simplify_fuel left.length left eps = some left := by
              refine SIH (pts.take (m + 1)).length (by rw [htl]; omega) _ rfl eps heps left ?_
              rw [simplify_fuel_congr (pts.take (m + 1)).length _ rfl _ n1 eps heps
                (le_refl _) (by rw [htl]; omega)]
              exact hl
            have hright_sim : simplify_fuel right.length right eps = some right := by
              refine SIH (pts.drop m).length (by rw [hdl]; omega) _ rfl eps heps right ?_
              rw [simplify_fuel_congr (pts.drop m).length _ rfl _ n1 eps heps
                (le_refl _) (by rw [hdl]; omega)]
              exact hr
            obtain ⟨L1, hL1⟩ : ∃ L1, (left.dropLast ++ right).length = L1 + 1 :=
              ⟨(left.dropLast ++ right).length - 1, by omega⟩
            rw [hL1, simplify_fuel_succ L1 _ eps (by omega), hr'lastD, hr'headI, hscan2]
            dsimp only
            rw [if_pos hgt, htake_r, hdrop_r]
            have he1 : simplify_fuel L1 left eps = some left := by
              rw [simplify_fuel_congr left.length _ rfl L1 left.length eps heps
                (by omega) (le_refl _)]
              exact hleft_sim
            have he2 : simplify_fuel L1 right eps = some right := by
              rw [simplify_fuel_congr right.length _ rfl L1 right.length eps heps
                (by omega) (le_refl _)]
              exact hright_sim
            rw [he1, he2]
      · rw [if_neg hgt] at h
        injection h with h
        subst h
        exact simplify_fuel_lt3 _ _ _ (by simp)

end PathSimplifier

namespace PathSimplifier

/-- C4.  For every point list and every tolerance `ε ≥ 0`,
`PathSimplifier.simplify` terminates and returns a list that is at most as
long as the input, has the input's first point first and the input's last
point last, and is the input itself whenever the input has fewer than 3
points. -/
theorem c4_simplify_endpoints (pts : List Point) (eps : ℚ) (heps : 0 ≤ eps) :
    ∃ r, simplify pts eps = some r ∧ r.length ≤ pts.length ∧
      r.head? = pts.head? ∧ r.getLast? = pts.getLast? ∧
      (pts.length < 3 → r = pts) := by
  obtain ⟨r, hr⟩ := Option.isSome_iff_exists.mp
    (simplify_fuel_isSome pts.length pts eps heps (le_refl _))
  have hr' : simplify_fuel pts.length pts eps = some r := hr
  obtain ⟨h1, h2, h3, _, _⟩ := simplify_fuel_spec _ _ _ _ hr'
  refine ⟨r, hr, h1, h2, h3, fun hlt => ?_⟩
  rw [simplify_fuel_lt3 _ _ _ hlt] at hr'
  injection hr' with hr'
  exact hr'.symm

/-- Witness for C4 at a concrete 3-point list and `ε = 1`. -/
theorem c4_simplify_endpoints_witness :
    (0 : ℚ) ≤ 1 ∧
    ∃ r, simplify [⟨0, 0⟩, ⟨1, 1⟩, ⟨2, 0⟩] 1 = some r ∧
      r.length ≤ ([⟨0, 0⟩, ⟨1, 1⟩, ⟨2, 0⟩] : List Point).length ∧
      r.head? = ([⟨0, 0⟩, ⟨1, 1⟩, ⟨2, 0⟩] : List Point).head? ∧
      r.getLast? = ([⟨0, 0⟩, ⟨1, 1⟩, ⟨2, 0⟩] : List Point).getLast? ∧
      (([⟨0, 0⟩, ⟨1, 1⟩, ⟨2, 0⟩] : List Point).length < 3 →
        r = [⟨0, 0⟩, ⟨1, 1⟩, ⟨2, 0⟩]) :=
  ⟨by norm_num, c4_simplify_endpoints [⟨0, 0⟩, ⟨1, 1⟩, ⟨2, 0⟩] 1 (by norm_num)⟩

/-- C5, counterexample.  The claim quantifies over **every** `ε`.  For
`ε = -1` and the constant list `[(0,0), (0,0), (0,0)]`, every interior
distance is 0, so no update of `(max_dist, index)` happens and `index`
stays 0; since `sqrt 0 > -1`, the source recurses on `points[0:]`, which
is the whole list again — an infinite recursion (`RecursionError`), i.e.
no simplified result exists at all, let alone an idempotent one.  In the
embedding the fuelled recursion returns `none`. -/
theorem c5_counterexample :
    ¬ ∃ r, simplify [⟨0, 0⟩, ⟨0, 0⟩, ⟨0, 0⟩] (-1) = some r ∧
      simplify r (-1) = some r := by
  have h3 : ¬ ([⟨0, 0⟩, ⟨0, 0⟩, ⟨0, 0⟩] : List Point).length < 3 := by simp
  have hids : interior_dists [⟨0, 0⟩, ⟨0, 0⟩, ⟨0, 0⟩] ⟨0, 0⟩ ⟨0, 0⟩ = [0] := by
    rw [show interior_dists [⟨0, 0⟩, ⟨0, 0⟩, ⟨0, 0⟩] ⟨0, 0⟩ ⟨0, 0⟩ =
      [perpendicular_distance_sq ⟨0, 0⟩ ⟨0, 0⟩ ⟨0, 0⟩] from rfl, pd_sq_start]
  have hms : max_scan [0] 1 (0, 0) = (0, 0) := by
    show max_scan [] 2 (if (0 : ℚ) < 0 then ((0 : ℚ), 1) else (0, 0)) = (0, 0)
    rw [if_neg (lt_irrefl (0 : ℚ))]
    rfl
  have hgt : dist_gt_eps 0 (-1) = true := by
    unfold dist_gt_eps
    rw [if_pos (by norm_num : (-1 : ℚ) < 0)]
  have h0 : simplify_fuel 0 [⟨0, 0⟩, ⟨0, 0⟩, ⟨0, 0⟩] (-1) = none := by
    rw [simplify_fuel.eq_def]
    dsimp only
    rw [if_neg h3]
  have hstep : ∀ f : Nat, simplify_fuel f [⟨0, 0⟩, ⟨0, 0⟩, ⟨0, 0⟩] (-1) = none →
      simplify_fuel (f + 1) [⟨0, 0⟩, ⟨0, 0⟩, ⟨0, 0⟩] (-1) = none := by
    intro f hf
    rw [simplify_fuel_succ f _ _ h3,
      show ([⟨0, 0⟩, ⟨0, 0⟩, ⟨0, 0⟩] : List Point).headI = ⟨0, 0⟩ from rfl,
      show ([⟨0, 0⟩, ⟨0, 0⟩, ⟨0, 0⟩] : List Point).getLastD ⟨0, 0⟩ = ⟨0, 0⟩ from rfl,
      hids, hms]
    dsimp only
    rw [hgt, if_pos rfl,
      show ([⟨0, 0⟩, ⟨0, 0⟩, ⟨0, 0⟩] : List Point).take (0 + 1) = [⟨0, 0⟩] from rfl,
      show ([⟨0, 0⟩, ⟨0, 0⟩, ⟨0, 0⟩] : List Point).drop 0 =
        [⟨0, 0⟩, ⟨0, 0⟩, ⟨0, 0⟩] from rfl,
      simplify_fuel_lt3 f [⟨0, 0⟩] (-1) (by simp), hf]
  have hnone : simplify [⟨0, 0⟩, ⟨0, 0⟩, ⟨0, 0⟩] (-1) = none :=
    hstep 2 (hstep 1 (hstep 0 h0))
  rintro ⟨r, hr, _⟩
  rw [hnone] at hr
  exact Option.noConfusion hr

/-- C5, amended.  For every point list and every tolerance `ε ≥ 0` the
recursion terminates and its result is a fixed point: running
`PathSimplifier.simplify` again on the output with the same `ε` returns
the output unchanged, i.e. `simplify(simplify(pts, ε), ε) =
simplify(pts, ε)`. -/
theorem c5_simplify_idempotent (pts : List Point) (eps : ℚ) (heps : 0 ≤ eps) :
    ∃ r, simplify pts eps = some r ∧ simplify r eps = some r := by
  obtain ⟨r, hr⟩ := Option.isSome_iff_exists.mp
    (simplify_fuel_isSome pts.length pts eps heps (le_refl _))
  exact ⟨r, hr, simplify_fuel_fixed pts.length pts rfl eps heps r hr⟩

/-- Witness for C5 at a concrete 4-point list and `ε = 0`. -/
theorem c5_simplify_idempotent_witness :
    (0 : ℚ) ≤ 0 ∧
    ∃ r, simplify [⟨0, 0⟩, ⟨1, 1⟩, ⟨2, 0⟩, ⟨3, 1⟩] 0 = some r ∧
      simplify r 0 = some r :=
  ⟨le_refl 0, c5_simplify_idempotent [⟨0, 0⟩, ⟨1, 1⟩, ⟨2, 0⟩, ⟨3, 1⟩] 0 (le_refl 0)⟩

end PathSimplifier
